import Mathlib

/-!
# Snowflake resource extraction (`backend/plugin/parser/sql/snowsql.go`)

A shallow embedding of the identifier normalizer, the qualified-name
resolution done by `EnterObject_ref`, and the tree walk, drain and sort of
`extractSnowflakeResourceList`.

Modelling conventions.

* A Go `string` is represented by its sequence of runes (`List Char`).  Every
  string handled here is the text of a token of the ANTLR rune stream, or is
  built from such texts and ASCII literals, hence is valid UTF-8; for such
  strings `[]rune(s)` and `string(rs)` are inverse to each other, and the
  byte tests against the ASCII quote (`strings.HasPrefix`, `strings.HasSuffix`,
  `s[1:len(s)-1]`) act on the first and the last rune.
* A run-time fault (Go `panic`) is the value `none` of an `Option` result.
* A nil-able pointer or interface value is an `Option` argument.
* Library code that is not part of the repository (`unicode.ToUpper`, the
  iteration order of `range` over a map, `sort.Slice`, the generated lexer
  and parser) is taken as a parameter, with its contract.
-/

namespace Snowsql

/-- A Go string, as the sequence of its runes. -/
abbrev GoString := List Char

/-- The rune of the double quote, written `'"'` in the Go source. -/
def dquote : Char := Char.ofNat 34

/-! ## Go string primitives -/

/-- Go `strings.HasPrefix(s, "\"")`. -/
def hasPrefixQuote (s : GoString) : Bool :=
  s.head? == some dquote

/-- Go `strings.HasSuffix(s, "\"")`. -/
def hasSuffixQuote (s : GoString) : Bool :=
  s.getLast? == some dquote

/-- Go slice expression `s[lo:hi]`: faults unless `lo ≤ hi ≤ len(s)`. -/
def goSlice (s : GoString) (lo hi : Nat) : Option GoString :=
  if lo ≤ hi ∧ hi ≤ s.length then some ((s.take hi).drop lo) else none

/-- Go `strings.Join(parts, sep)`. -/
def stringsJoin : List GoString → GoString → GoString
  | [], _ => []
  | [a], _ => a
  | a :: b :: rest, sep => a ++ sep ++ stringsJoin (b :: rest) sep

/-- Go `strings.TrimRight(s, cutset)`: `s` without its trailing runes that
occur in `cutset`. -/
def stringsTrimRight (s cutset : GoString) : GoString :=
  (s.reverse.dropWhile (fun c => cutset.contains c)).reverse

/-- The string literal `"."`. -/
def dot : GoString := ['.']

/-- UTF-8 encoding of one rune, given by its code point. -/
def utf8EncodeRune (c : Nat) : List Nat :=
  if c < 0x80 then [c]
  else if c < 0x800 then [0xC0 + c / 0x40, 0x80 + c % 0x40]
  else if c < 0x10000 then [0xE0 + c / 0x1000, 0x80 + c / 0x40 % 0x40, 0x80 + c % 0x40]
  else [0xF0 + c / 0x40000, 0x80 + c / 0x1000 % 0x40, 0x80 + c / 0x40 % 0x40, 0x80 + c % 0x40]

/-- The bytes of a Go string. -/
def utf8Bytes : GoString → List Nat
  | [] => []
  | c :: rest => utf8EncodeRune c.toNat ++ utf8Bytes rest

/-- Lexicographic comparison of byte sequences. -/
def bytesLess : List Nat → List Nat → Bool
  | [], [] => false
  | [], _ :: _ => true
  | _ :: _, [] => false
  | a :: as, b :: bs => if a < b then true else if b < a then false else bytesLess as bs

/-- Go `a < b` on strings: byte-wise lexicographic comparison. -/
def stringLess (a b : GoString) : Bool :=
  bytesLess (utf8Bytes a) (utf8Bytes b)

/-! ## ExtractOrdinaryIdentifier -/

/-- The `for i := 0; i < len(runeObjectName); i++` loop of
`ExtractOrdinaryIdentifier`, entered at index `i` with the runes appended so
far in `result`.  The read `runeObjectName[i+1]` is guarded by `i+1 < len`,
as in the source. -/
def extractLoop (toUpper : Char → Char) (quoted : Bool) (runeObjectName : List Char)
    (i : Nat) (result : List Char) : List Char :=
  if h : i < runeObjectName.length then
    let newRune := runeObjectName[i]
    if i + 1 < runeObjectName.length ∧ runeObjectName[i] = dquote ∧
        runeObjectName[i + 1]? = some dquote ∧ quoted = true then
      extractLoop toUpper quoted runeObjectName (i + 1 + 1) (result ++ [dquote])
    else if quoted = false then
      extractLoop toUpper quoted runeObjectName (i + 1) (result ++ [toUpper newRune])
    else
      extractLoop toUpper quoted runeObjectName (i + 1) (result ++ [newRune])
  else
    result
termination_by runeObjectName.length - i

/-- Go `ExtractOrdinaryIdentifier`.  The result is `none` when the slice
expression `identifier[1 : len(identifier)-1]` faults.  When `quoted` holds the
first and the last byte of the string are the one-byte double quote, so the
byte slice is the rune sequence without its first and last rune, and its
bounds are out of order exactly when the string is the double quote alone. -/
def ExtractOrdinaryIdentifier (toUpper : Char → Char) (identifier : GoString) :
    Option GoString :=
  let quoted := hasPrefixQuote identifier && hasSuffixQuote identifier
  let sliced : Option GoString :=
    if quoted then goSlice identifier 1 (identifier.length - 1) else some identifier
  match sliced with
  | none => none
  | some identifier =>
    let runeObjectName : List Char := identifier
    some (extractLoop toUpper quoted runeObjectName 0 [])

/-! ## Parse-tree contexts of the generated parser -/

/-- The `parser.IId_Context` of an identifier: `text` is its `GetText()`. -/
structure Id_Context where
  text : GoString
deriving DecidableEq, Repr

/-- The `parser.IObject_nameContext`: `d`, `s`, `o` are `GetD()`, `GetS()` and
`GetO()`, each `none` when the accessor returns nil. -/
structure Object_nameContext where
  d : Option Id_Context
  s : Option Id_Context
  o : Option Id_Context
deriving DecidableEq, Repr

/-- The `parser.Object_refContext`: `object_name` is `Object_name()`, `none`
when it returns nil. -/
structure Object_refContext where
  object_name : Option Object_nameContext
deriving DecidableEq, Repr

/-- The parse tree, as far as the walk of a listener that overrides only
`EnterObject_ref` sees it: the `Object_ref` nodes in the order in which the
walker enters them. -/
structure Tree where
  object_refs : List Object_refContext
deriving DecidableEq, Repr

/-! ## SchemaResource and the registry -/

/-- Modelled from the spec: the value type `SchemaResource`, declared outside
the files at hand: `{Database: string, Schema: string, Table: string}`. -/
structure SchemaResource where
  Database : GoString
  Schema : GoString
  Table : GoString
deriving DecidableEq, Repr

/-- Modelled from the spec: the method `SchemaResource.String`, declared
outside the files at hand: the canonical string form
`Database + "." + Schema + "." + Table`. -/
def SchemaResource.String (r : SchemaResource) : GoString :=
  r.Database ++ dot ++ r.Schema ++ dot ++ r.Table

/-- A Go `map[string]SchemaResource`: its entries, no two with the same key. -/
abbrev ResourceMap := List (GoString × SchemaResource)

/-- The map assignment `m[k] = v`: overwrites the entry of `k` if there is
one, adds an entry otherwise. -/
def mapSet : ResourceMap → GoString → SchemaResource → ResourceMap
  | [], k, v => [(k, v)]
  | (k', v') :: rest, k, v =>
    if k' = k then (k, v) :: rest else (k', v') :: mapSet rest k v

/-- The struct `snowsqlResourceExtractListener`. -/
structure snowsqlResourceExtractListener where
  currentDatabase : GoString
  currentSchema : GoString
  resourceMap : ResourceMap
deriving DecidableEq, Repr

/-! ## Name normalization and the listener -/

/-- Go `NormalizeObjectNamePart`. -/
def NormalizeObjectNamePart (toUpper : Char → Char) (part : Option Id_Context) :
    Option GoString :=
  match part with
  | none => some []
  | some part => ExtractOrdinaryIdentifier toUpper part.text

/-- Go `NormalizeObjectName`. -/
def NormalizeObjectName (toUpper : Char → Char) (objectName : Object_nameContext) :
    Option GoString :=
  let parts : List GoString := []
  let partsD : Option (List GoString) :=
    match objectName.d with
    | some d =>
      match NormalizeObjectNamePart toUpper (some d) with
      | none => none
      | some normalizedD => if normalizedD ≠ [] then some (parts ++ [normalizedD]) else some parts
    | none => some parts
  match partsD with
  | none => none
  | some parts =>
    let schema : GoString := []
    let schemaS : Option GoString :=
      match objectName.s with
      | some s =>
        match NormalizeObjectNamePart toUpper (some s) with
        | none => none
        | some normalizedS => if normalizedS ≠ [] then some normalizedS else some schema
      | none => some schema
    match schemaS with
    | none => none
    | some schema =>
      let schema := if schema = [] then "PUBLIC".toList else schema
      let parts := parts ++ [schema]
      let partsO : Option (List GoString) :=
        match objectName.o with
        | some o =>
          match NormalizeObjectNamePart toUpper (some o) with
          | none => none
          | some normalizedO =>
            if normalizedO ≠ [] then some (parts ++ [normalizedO]) else some parts
        | none => some parts
      match partsO with
      | none => none
      | some parts => some (stringsJoin parts dot)

/-- Go `(*snowsqlResourceExtractListener).EnterObject_ref`: the listener after
the call, `none` when the call faults. -/
def EnterObject_ref (toUpper : Char → Char) (l : snowsqlResourceExtractListener)
    (ctx : Object_refContext) : Option snowsqlResourceExtractListener :=
  match ctx.object_name with
  | none => some l
  | some objectName =>
    let parts : List GoString := []
    let database := l.currentDatabase
    let databaseD : Option GoString :=
      match objectName.d with
      | some d =>
        match NormalizeObjectNamePart toUpper (some d) with
        | none => none
        | some normalizedD => if normalizedD ≠ [] then some normalizedD else some database
      | none => some database
    match databaseD with
    | none => none
    | some database =>
      let parts := parts ++ [database]
      let schema := l.currentSchema
      let schemaS : Option GoString :=
        match objectName.s with
        | some s =>
          match NormalizeObjectNamePart toUpper (some s) with
          | none => none
          | some normalizedS => if normalizedS ≠ [] then some normalizedS else some schema
        | none => some schema
      match schemaS with
      | none => none
      | some schema =>
        let parts := parts ++ [schema]
        let table : GoString := []
        let tableO : Option GoString :=
          match objectName.o with
          | some o =>
            match NormalizeObjectNamePart toUpper (some o) with
            | none => none
            | some normalizedO => if normalizedO ≠ [] then some normalizedO else some table
          | none => some table
        match tableO with
        | none => none
        | some table =>
          let parts := parts ++ [table]
          let normalizedObjectName := stringsJoin parts dot
          some { l with
            resourceMap := mapSet l.resourceMap normalizedObjectName
              { Database := database, Schema := schema, Table := table } }

/-! ## Library code outside the repository -/

/-- The library functions the extraction relies on: `unicode.ToUpper`, the
generated lexer and parser run on a text (the tree of `Snowflake_file()` and
the errors left in the lexer's and the parser's error listener), the order in
which `range` enumerates a map, and `sort.Slice`. -/
structure GoRuntime (ε : Type) where
  toUpper : Char → Char
  snowflakeFile : GoString → Tree × Option ε × Option ε
  mapRange : ResourceMap → List (GoString × SchemaResource)
  sortSlice : List SchemaResource → (SchemaResource → SchemaResource → Bool) →
    List SchemaResource

/-- A strict weak ordering, the requirement of `sort.Slice` on `less`. -/
structure StrictWeakOrder {α : Type} (less : α → α → Bool) : Prop where
  irrefl : ∀ a, less a a = false
  trans : ∀ a b c, less a b = true → less b c = true → less a c = true
  incomp_trans : ∀ a b c, less a b = false → less b c = false → less a c = false

/-- The contracts of the library functions: `range` enumerates every entry
of the map once, in some order; `sort.Slice` permutes the slice so that no
element is `less` than one before it. -/
structure GoRuntime.Lawful {ε : Type} (rt : GoRuntime ε) : Prop where
  mapRange_perm : ∀ m, (rt.mapRange m).Perm m
  sortSlice_perm : ∀ xs less, (rt.sortSlice xs less).Perm xs
  sortSlice_sorted : ∀ xs less, StrictWeakOrder less →
    (rt.sortSlice xs less).Pairwise (fun a b => less b a = false)

/-! ## ParseSnowSQL and extractSnowflakeResourceList -/

/-- Go `ParseSnowSQL`: the returned pair (tree, error). -/
def ParseSnowSQL {ε : Type} (rt : GoRuntime ε) (statement : GoString) :
    Option Tree × Option ε :=
  let statement := stringsTrimRight statement " \t\n\r\x0c;".toList ++ "\n;".toList
  match rt.snowflakeFile statement with
  | (tree, lexerErr, parserErr) =>
    match lexerErr with
    | some err => (none, some err)
    | none =>
      match parserErr with
      | some err => (none, some err)
      | none => (some tree, none)

/-- The walk `antlr.ParseTreeWalkerDefault.Walk(l, tree)`, which calls
`EnterObject_ref` on each `Object_ref` node in turn. -/
def Walk (toUpper : Char → Char) (l : snowsqlResourceExtractListener) :
    List Object_refContext → Option snowsqlResourceExtractListener
  | [] => some l
  | ctx :: rest =>
    match EnterObject_ref toUpper l ctx with
    | none => none
    | some l' => Walk toUpper l' rest

/-- Go `extractSnowflakeResourceList`: the returned pair (list, error), `none`
when the call faults. -/
def extractSnowflakeResourceList {ε : Type} (rt : GoRuntime ε)
    (currentDatabase currentSchema statement : GoString) :
    Option (List SchemaResource × Option ε) :=
  match ParseSnowSQL rt statement with
  | (_, some err) => some ([], some err)
  | (none, none) => none
  | (some tree, none) =>
    let l : snowsqlResourceExtractListener :=
      { currentDatabase := currentDatabase, currentSchema := currentSchema, resourceMap := [] }
    match Walk rt.toUpper l tree.object_refs with
    | none => none
    | some l =>
      let result : List SchemaResource := (rt.mapRange l.resourceMap).map (fun kv => kv.2)
      let result := rt.sortSlice result (fun a b => stringLess a.String b.String)
      some (result, none)

/-! ## The preprocessing of ParseSnowSQL and the keyword table -/

/-- The text `ParseSnowSQL` passes to `antlr.NewInputStream`: the value of
`strings.TrimRight(statement, " \t\n\r\f;") + "\n;"`. -/
def lexerInput (statement : GoString) : GoString :=
  stringsTrimRight statement " \t\n\r\x0c;".toList ++ "\n;".toList

/-- Go `strings.ToUpper(s)`: every rune of `s` mapped by `unicode.ToUpper`. -/
def stringsToUpper (toUpper : Char → Char) (s : GoString) : GoString :=
  s.map toUpper

/-- The map literal `snowflakeKeyword`, entry by entry. -/
def snowflakeKeyword : List (GoString × Bool) :=
  [("ACCOUNT".toList, true), ("ALL".toList, true), ("ALTER".toList, true),
   ("AND".toList, true), ("ANY".toList, true), ("AS".toList, true),
   ("BETWEEN".toList, true), ("BY".toList, true), ("CASE".toList, true),
   ("CAST".toList, true), ("CHECK".toList, true), ("COLUMN".toList, true),
   ("CONNECT".toList, true), ("CONNECTION".toList, true), ("CONSTRAINT".toList, true),
   ("CREATE".toList, true), ("CROSS".toList, true), ("CURRENT".toList, true),
   ("CURRENT_DATE".toList, true), ("CURRENT_TIME".toList, true),
   ("CURRENT_TIMESTAMP".toList, true), ("CURRENT_USER".toList, true),
   ("DATABASE".toList, true), ("DELETE".toList, true), ("DISTINCT".toList, true),
   ("DROP".toList, true), ("ELSE".toList, true), ("EXISTS".toList, true),
   ("FALSE".toList, true), ("FOLLOWING".toList, true), ("FOR".toList, true),
   ("FROM".toList, true), ("FULL".toList, true), ("GRANT".toList, true),
   ("GROUP".toList, true), ("GSCLUSTER".toList, true), ("HAVING".toList, true),
   ("ILIKE".toList, true), ("IN".toList, true), ("INCREMENT".toList, true),
   ("INNER".toList, true), ("INSERT".toList, true), ("INTERSECT".toList, true),
   ("INTO".toList, true), ("IS".toList, true), ("ISSUE".toList, true),
   ("JOIN".toList, true), ("LATERAL".toList, true), ("LEFT".toList, true),
   ("LIKE".toList, true), ("LOCALTIME".toList, true), ("LOCALTIMESTAMP".toList, true),
   ("MINUS".toList, true), ("NATURAL".toList, true), ("NOT".toList, true),
   ("NULL".toList, true), ("OF".toList, true), ("ON".toList, true), ("OR".toList, true),
   ("ORDER".toList, true), ("ORGANIZATION".toList, true), ("QUALIFY".toList, true),
   ("REGEXP".toList, true), ("REVOKE".toList, true), ("RIGHT".toList, true),
   ("RLIKE".toList, true), ("ROW".toList, true), ("ROWS".toList, true),
   ("SAMPLE".toList, true), ("SCHEMA".toList, true), ("SELECT".toList, true),
   ("SET".toList, true), ("SOME".toList, true), ("START".toList, true),
   ("TABLE".toList, true), ("TABLESAMPLE".toList, true), ("THEN".toList, true),
   ("TO".toList, true), ("TRIGGER".toList, true), ("TRUE".toList, true),
   ("TRY_CAST".toList, true), ("UNION".toList, true), ("UNIQUE".toList, true),
   ("UPDATE".toList, true), ("USING".toList, true), ("VALUES".toList, true),
   ("VIEW".toList, true), ("WHEN".toList, true), ("WHENEVER".toList, true),
   ("WHERE".toList, true), ("WITH".toList, true)]

/-- The Go index expression `m[k]` on a `map[string]bool`: the value stored
under `k`, the zero value `false` when `k` has no entry. -/
def mapIndexBool : List (GoString × Bool) → GoString → Bool
  | [], _ => false
  | (k', v) :: rest, k => if k' = k then v else mapIndexBool rest k

/-- Go `IsSnowflakeKeyword`. -/
def IsSnowflakeKeyword (toUpper : Char → Char) (s : GoString) (caseSensitive : Bool) : Bool :=
  let s := if !caseSensitive then stringsToUpper toUpper s else s
  mapIndexBool snowflakeKeyword s

/-! ## A concrete runtime -/

/-- Insertion of one element into a sorted list. -/
def insertSorted {α : Type} (less : α → α → Bool) (x : α) : List α → List α
  | [] => [x]
  | y :: ys => if less x y then x :: y :: ys else y :: insertSorted less x ys

/-- Insertion sort. -/
def insertionSortBy {α : Type} (less : α → α → Bool) : List α → List α
  | [] => []
  | x :: xs => insertSorted less x (insertionSortBy less xs)

/-- A runtime to evaluate the definitions with: ASCII upper-casing (the
restriction of `unicode.ToUpper` to ASCII), a parser that accepts every text
with the given tree, map enumeration in reverse order of insertion, and
insertion sort. -/
def demoRuntime (tree : Tree) : GoRuntime Unit where
  toUpper := Char.toUpper
  snowflakeFile := fun _ => (tree, none, none)
  mapRange := fun m => m.reverse
  sortSlice := fun xs less => insertionSortBy less xs

/-- A runtime whose lexer records the text it is given as its error, so that
the error `ParseSnowSQL` returns is the text it handed to the lexer. -/
def echoRuntime : GoRuntime GoString where
  toUpper := Char.toUpper
  snowflakeFile := fun text => ({ object_refs := [] }, some text, none)
  mapRange := fun m => m
  sortSlice := fun xs less => insertionSortBy less xs

/-- A second runtime with the given tree: map enumeration in order of
insertion, and insertion sort of the reversed slice. -/
def demoRuntimeForward (tree : Tree) : GoRuntime Unit where
  toUpper := Char.toUpper
  snowflakeFile := fun _ => (tree, none, none)
  mapRange := fun m => m
  sortSlice := fun xs less => insertionSortBy less xs.reverse

/-! ## Reference functions, written from the specification -/

/-- Left-to-right scan in which every pair of two double quotes becomes one
double quote and every other rune is copied. -/
def collapseQuotes : List Char → List Char
  | [] => []
  | [c] => [c]
  | c :: c' :: rest =>
    if c = dquote ∧ c' = dquote then dquote :: collapseQuotes rest
    else c :: collapseQuotes (c' :: rest)

/-- Every double quote of the text written twice. -/
def doubleQuotes : List Char → List Char
  | [] => []
  | c :: rest => if c = dquote then dquote :: dquote :: doubleQuotes rest
                 else c :: doubleQuotes rest

/-- The quoted lexeme of a text: its double quotes doubled, wrapped in one
double quote on each side. -/
def quoteLexeme (t : List Char) : GoString :=
  dquote :: (doubleQuotes t ++ [dquote])

/-- Closed form of `ExtractOrdinaryIdentifier`: the fault of the slice
expression, the collapsed inner text of a quoted lexeme, the upper-cased
runes of any other lexeme. -/
def normalizeClosed (toUpper : Char → Char) (identifier : GoString) : Option GoString :=
  if hasPrefixQuote identifier && hasSuffixQuote identifier then
    if identifier.length < 2 then none
    else some (collapseQuotes ((identifier.take (identifier.length - 1)).drop 1))
  else some (identifier.map toUpper)

/-- The upper-casing function agrees with ASCII upper-casing on ASCII runes,
as `unicode.ToUpper` does. -/
def ASCIIUpper (toUpper : Char → Char) : Prop :=
  ∀ c : Char, c.toNat < 128 → toUpper c = Char.toUpper c

/-- The qualified-name resolution of a reference, as the specification
describes it for the reference path (no default-schema backfill): each of the
database and schema parts is the normalized part when the part is present and
normalizes to a non-empty string and the ambient value otherwise; the object
part is the normalized part.  The result is `none` when the normalizer faults
on a part. -/
def resolveObjectName (toUpper : Char → Char) (currentDatabase currentSchema : GoString)
    (name : Object_nameContext) : Option SchemaResource :=
  match NormalizeObjectNamePart toUpper name.d, NormalizeObjectNamePart toUpper name.s,
      NormalizeObjectNamePart toUpper name.o with
  | some nd, some ns, some no =>
    some { Database := if name.d.isSome ∧ nd ≠ [] then nd else currentDatabase,
           Schema := if name.s.isSome ∧ ns ≠ [] then ns else currentSchema,
           Table := no }
  | _, _, _ => none

/-- The identifier is not the one-rune text `"`, the only text on which
`ExtractOrdinaryIdentifier` faults. -/
def Id_Context.Valid (part : Option Id_Context) : Prop :=
  ∀ id, part = some id → id.text ≠ [dquote]

/-- No identifier of the object name of the node is the one-rune text `"`. -/
def Object_refContext.Valid (ctx : Object_refContext) : Prop :=
  ∀ name, ctx.object_name = some name →
    Id_Context.Valid name.d ∧ Id_Context.Valid name.s ∧ Id_Context.Valid name.o

/-- The Go map lookup `m[k]` with its presence flag. -/
def mapGet : ResourceMap → GoString → Option SchemaResource
  | [], _ => none
  | (k', v') :: rest, k => if k' = k then some v' else mapGet rest k

/-- The registry invariant: no two entries have the same key, and every key
is the canonical string of the value stored under it. -/
def RegistryInv (m : ResourceMap) : Prop :=
  (m.map (fun kv => kv.1)).Nodup ∧ ∀ kv ∈ m, kv.1 = kv.2.String

/-- The resolution of a reference node: the resource `EnterObject_ref` stores
for the node, read off a call on the empty registry. -/
def Resolves (toUpper : Char → Char) (currentDatabase currentSchema : GoString)
    (ctx : Object_refContext) (r : SchemaResource) : Prop :=
  EnterObject_ref toUpper
      { currentDatabase := currentDatabase, currentSchema := currentSchema, resourceMap := [] }
      ctx =
    some { currentDatabase := currentDatabase, currentSchema := currentSchema,
           resourceMap := [(r.String, r)] }

/-- Two optional identifier parts differ only in letter case: both are
absent, or both are present, unquoted (not both starting and ending with the
double quote) and equal after upper-casing. -/
def SameUpToCase (toUpper : Char → Char) (p q : Option Id_Context) : Prop :=
  match p, q with
  | none, none => True
  | some a, some b =>
    ¬ (a.text.head? = some dquote ∧ a.text.getLast? = some dquote) ∧
    ¬ (b.text.head? = some dquote ∧ b.text.getLast? = some dquote) ∧
    a.text.map toUpper = b.text.map toUpper
  | _, _ => False

/-- The components of the object name that `NormalizeObjectName` joins, as the
specification lists them: the normalized database part when present and
non-empty, the schema component (the normalized schema part when present and
non-empty, `PUBLIC` otherwise), the normalized object part when present and
non-empty. -/
def objectNameParts (name : Object_nameContext) (nd ns no : GoString) : List GoString :=
  (if name.d.isSome ∧ nd ≠ [] then [nd] else []) ++
    [if name.s.isSome ∧ ns ≠ [] then ns else "PUBLIC".toList] ++
    (if name.o.isSome ∧ no ≠ [] then [no] else [])

/-- A reference node with the given lexemes as database, schema and object
part. -/
def refOf (d s o : Option GoString) : Object_refContext :=
  { object_name := some { d := d.map Id_Context.mk, s := s.map Id_Context.mk,
                          o := o.map Id_Context.mk } }

/-- The text contains no `.`. -/
def NoDot (s : GoString) : Prop := '.' ∉ s

/-! ## Lemmas on the normalizer loop -/

theorem collapseQuotes_cons_cons (c c' : Char) (rest : List Char) :
    collapseQuotes (c :: c' :: rest) =
      if c = dquote ∧ c' = dquote then dquote :: collapseQuotes rest
      else c :: collapseQuotes (c' :: rest) := by
  rw [collapseQuotes]

theorem extractLoop_step (toUpper : Char → Char) (quoted : Bool) (runes : List Char)
    (i : Nat) (result : List Char) :
    extractLoop toUpper quoted runes i result =
      if h : i < runes.length then
        if i + 1 < runes.length ∧ runes[i] = dquote ∧
            runes[i + 1]? = some dquote ∧ quoted = true then
          extractLoop toUpper quoted runes (i + 1 + 1) (result ++ [dquote])
        else if quoted = false then
          extractLoop toUpper quoted runes (i + 1) (result ++ [toUpper runes[i]])
        else
          extractLoop toUpper quoted runes (i + 1) (result ++ [runes[i]])
      else result := by
  rw [extractLoop]

theorem extractLoop_unquoted (toUpper : Char → Char) (runes : List Char) (i : Nat)
    (result : List Char) :
    extractLoop toUpper false runes i result = result ++ (runes.drop i).map toUpper := by
  induction i, result using extractLoop.induct toUpper false runes with
  | case1 i result h hc ih => exact absurd hc.2.2.2 (by decide)
  | case2 i result h newRune hc hq ih =>
    rw [extractLoop_step, dif_pos h, if_neg hc, if_pos rfl, ih, List.drop_eq_getElem_cons h,
      List.map_cons, List.append_assoc]
    rfl
  | case3 i result h newRune hc hq ih => exact absurd rfl hq
  | case4 i result h =>
    rw [extractLoop_step, dif_neg h, List.drop_eq_nil_of_le (Nat.le_of_not_lt h)]
    simp

theorem extractLoop_quoted (toUpper : Char → Char) (runes : List Char) (i : Nat)
    (result : List Char) :
    extractLoop toUpper true runes i result = result ++ collapseQuotes (runes.drop i) := by
  induction i, result using extractLoop.induct toUpper true runes with
  | case1 i result h hc ih =>
    rw [extractLoop_step, dif_pos h, if_pos hc, ih]
    obtain ⟨h1, h2, h3, -⟩ := hc
    have h3' : runes[i + 1] = dquote := by
      rw [List.getElem?_eq_getElem h1] at h3
      exact Option.some.inj h3
    rw [List.drop_eq_getElem_cons h, List.drop_eq_getElem_cons h1, collapseQuotes_cons_cons,
      if_pos ⟨h2, h3'⟩, List.append_assoc]
    rfl
  | case2 i result h newRune hc hq ih => exact absurd hq (by decide)
  | case3 i result h newRune hc hq ih =>
    rw [extractLoop_step, dif_pos h, if_neg hc, if_neg hq, ih, List.drop_eq_getElem_cons h,
      List.append_assoc]
    by_cases h1 : i + 1 < runes.length
    · have hne : ¬ (runes[i] = dquote ∧ runes[i + 1] = dquote) := by
        intro hh
        apply hc
        exact ⟨h1, hh.1, by rw [List.getElem?_eq_getElem h1, hh.2], rfl⟩
      rw [List.drop_eq_getElem_cons h1, collapseQuotes_cons_cons, if_neg hne]
      rfl
    · rw [List.drop_eq_nil_of_le (Nat.le_of_not_lt h1)]
      rfl
  | case4 i result h =>
    rw [extractLoop_step, dif_neg h, List.drop_eq_nil_of_le (Nat.le_of_not_lt h)]
    simp [collapseQuotes]

theorem ExtractOrdinaryIdentifier_eq (toUpper : Char → Char) (identifier : GoString) :
    ExtractOrdinaryIdentifier toUpper identifier = normalizeClosed toUpper identifier := by
  unfold ExtractOrdinaryIdentifier normalizeClosed
  by_cases hq : (hasPrefixQuote identifier && hasSuffixQuote identifier) = true
  · simp only [hq, if_true]
    by_cases hl : identifier.length < 2
    · have : ¬ (1 ≤ identifier.length - 1 ∧ identifier.length - 1 ≤ identifier.length) := by omega
      simp only [goSlice, if_neg this, if_pos hl]
    · have : (1 ≤ identifier.length - 1 ∧ identifier.length - 1 ≤ identifier.length) := by omega
      simp only [goSlice, if_pos this, if_neg hl, extractLoop_quoted]
      simp
  · have hq' : (hasPrefixQuote identifier && hasSuffixQuote identifier) = false := by
      simpa using hq
    simp only [hq', extractLoop_unquoted]
    simp

theorem quoted_iff (identifier : GoString) :
    (hasPrefixQuote identifier && hasSuffixQuote identifier) = true ↔
      identifier.head? = some dquote ∧ identifier.getLast? = some dquote := by
  simp [hasPrefixQuote, hasSuffixQuote]

/-- A lexeme that starts and ends with the quote and is not the quote alone
has at least two runes. -/
theorem quoted_length (identifier : GoString) (hp : identifier.head? = some dquote)
    (hs : identifier.getLast? = some dquote) (hne : identifier ≠ [dquote]) :
    2 ≤ identifier.length := by
  match identifier, hp, hs, hne with
  | [c], hp, _, hne =>
    simp at hp
    exact absurd (by rw [hp]) hne
  | _ :: _ :: _, _, _, _ => simp

theorem inner_eq (identifier : GoString) :
    (identifier.take (identifier.length - 1)).drop 1 = (identifier.drop 1).dropLast := by
  rw [List.dropLast_eq_take, List.drop_take, List.length_drop]

theorem collapseQuotes_doubleQuotes (t : List Char) :
    collapseQuotes (doubleQuotes t) = t := by
  induction t with
  | nil => rfl
  | cons c rest ih =>
    by_cases hc : c = dquote
    · rw [doubleQuotes, if_pos hc, collapseQuotes_cons_cons, if_pos ⟨rfl, rfl⟩, ih, hc]
    · rw [doubleQuotes, if_neg hc]
      match hd : doubleQuotes rest with
      | [] =>
        rw [hd] at ih
        rw [← ih]
        rfl
      | c' :: rest' =>
        rw [collapseQuotes_cons_cons, if_neg (fun h => hc h.1), ← hd, ih]

theorem quoteLexeme_quoted (t : List Char) :
    (hasPrefixQuote (quoteLexeme t) && hasSuffixQuote (quoteLexeme t)) = true := by
  rw [quoted_iff]
  constructor
  · rfl
  · rw [quoteLexeme, ← List.cons_append, List.getLast?_append]
    rfl

theorem quoteLexeme_inner (t : List Char) :
    ((quoteLexeme t).take ((quoteLexeme t).length - 1)).drop 1 = doubleQuotes t := by
  rw [inner_eq, quoteLexeme, List.drop_one, List.tail_cons, List.dropLast_concat]

theorem normalize_quoted (toUpper : Char → Char) (lexeme : GoString)
    (hlen : 2 ≤ lexeme.length) (hp : lexeme.head? = some dquote)
    (hs : lexeme.getLast? = some dquote) :
    ExtractOrdinaryIdentifier toUpper lexeme =
      some (collapseQuotes (lexeme.drop 1).dropLast) := by
  rw [ExtractOrdinaryIdentifier_eq, normalizeClosed, if_pos ((quoted_iff lexeme).2 ⟨hp, hs⟩),
    if_neg (by omega), inner_eq]

theorem normalize_unquoted (toUpper : Char → Char) (lexeme : GoString)
    (hq : ¬ (lexeme.head? = some dquote ∧ lexeme.getLast? = some dquote)) :
    ExtractOrdinaryIdentifier toUpper lexeme = some (lexeme.map toUpper) := by
  rw [ExtractOrdinaryIdentifier_eq, normalizeClosed,
    if_neg (fun h => hq ((quoted_iff lexeme).1 h))]

theorem normalize_of_ne_quote (toUpper : Char → Char) (lexeme : GoString)
    (hne : lexeme ≠ [dquote]) :
    ExtractOrdinaryIdentifier toUpper lexeme =
      some (if lexeme.head? = some dquote ∧ lexeme.getLast? = some dquote
        then collapseQuotes (lexeme.drop 1).dropLast else lexeme.map toUpper) := by
  by_cases hq : lexeme.head? = some dquote ∧ lexeme.getLast? = some dquote
  · rw [if_pos hq]
    exact normalize_quoted toUpper lexeme (quoted_length lexeme hq.1 hq.2 hne) hq.1 hq.2
  · rw [if_neg hq]
    exact normalize_unquoted toUpper lexeme hq

theorem normalize_quoteLexeme (toUpper : Char → Char) (t : List Char) :
    ExtractOrdinaryIdentifier toUpper (quoteLexeme t) = some t := by
  rw [ExtractOrdinaryIdentifier_eq, normalizeClosed, if_pos (quoteLexeme_quoted t),
    if_neg (by simp [quoteLexeme]), quoteLexeme_inner, collapseQuotes_doubleQuotes]

/-! ## Lemmas on name normalization and the listener -/

theorem NormalizeObjectNamePart_valid (toUpper : Char → Char) (part : Option Id_Context)
    (h : Id_Context.Valid part) : ∃ n, NormalizeObjectNamePart toUpper part = some n := by
  cases part with
  | none => exact ⟨[], rfl⟩
  | some id => exact ⟨_, normalize_of_ne_quote toUpper id.text (h id rfl)⟩

/-- The call `EnterObject_ref` on a node with an object name: the assignment of the
resolved resource under its canonical string. -/
theorem EnterObject_ref_eq (toUpper : Char → Char) (l : snowsqlResourceExtractListener)
    (name : Object_nameContext) :
    EnterObject_ref toUpper l ⟨some name⟩ =
      (resolveObjectName toUpper l.currentDatabase l.currentSchema name).map
        (fun r => { l with resourceMap := mapSet l.resourceMap r.String r }) := by
  obtain ⟨d, s, o⟩ := name
  unfold EnterObject_ref resolveObjectName
  simp only [stringsJoin, SchemaResource.String, List.nil_append, List.append_assoc]
  rcases d with _ | d <;> rcases s with _ | s <;> rcases o with _ | o <;>
    simp only [NormalizeObjectNamePart] <;>
    (try generalize ExtractOrdinaryIdentifier toUpper d.text = rd) <;>
    (try generalize ExtractOrdinaryIdentifier toUpper s.text = rs) <;>
    (try generalize ExtractOrdinaryIdentifier toUpper o.text = ro) <;>
    (try rcases rd with _ | rd) <;> (try rcases rs with _ | rs) <;>
    (try rcases ro with _ | ro) <;>
    (try by_cases hd : rd = []) <;> (try by_cases hs : rs = []) <;>
    (try by_cases ho : ro = []) <;>
    simp_all

theorem resolveObjectName_valid (toUpper : Char → Char) (cd cs : GoString)
    (name : Object_nameContext) (hd : Id_Context.Valid name.d) (hs : Id_Context.Valid name.s)
    (ho : Id_Context.Valid name.o) : ∃ r, resolveObjectName toUpper cd cs name = some r := by
  obtain ⟨nd, hnd⟩ := NormalizeObjectNamePart_valid toUpper name.d hd
  obtain ⟨ns, hns⟩ := NormalizeObjectNamePart_valid toUpper name.s hs
  obtain ⟨no, hno⟩ := NormalizeObjectNamePart_valid toUpper name.o ho
  exact ⟨_, by rw [resolveObjectName, hnd, hns, hno]⟩

/-! ## Lemmas on the registry -/

theorem mem_mapSet (m : ResourceMap) (k : GoString) (v : SchemaResource)
    (kv : GoString × SchemaResource) (h : kv ∈ mapSet m k v) : kv = (k, v) ∨ kv ∈ m := by
  induction m with
  | nil =>
    rw [mapSet, List.mem_singleton] at h
    exact Or.inl h
  | cons e rest ih =>
    obtain ⟨k', v'⟩ := e
    rw [mapSet] at h
    split at h
    · rcases List.mem_cons.1 h with h | h
      · exact Or.inl h
      · exact Or.inr (List.mem_cons_of_mem _ h)
    · rcases List.mem_cons.1 h with h | h
      · exact Or.inr (h ▸ List.mem_cons_self _ _)
      · rcases ih h with h | h
        · exact Or.inl h
        · exact Or.inr (List.mem_cons_of_mem _ h)

theorem mapSet_mem_self (m : ResourceMap) (k : GoString) (v : SchemaResource) :
    (k, v) ∈ mapSet m k v := by
  induction m with
  | nil => simp [mapSet]
  | cons e rest ih =>
    obtain ⟨k', v'⟩ := e
    rw [mapSet]
    split
    · exact List.mem_cons_self _ _
    · exact List.mem_cons_of_mem _ ih

theorem mem_mapSet_of_ne (m : ResourceMap) (k : GoString) (v : SchemaResource)
    (kv : GoString × SchemaResource) (h : kv ∈ m) (hne : kv.1 ≠ k) : kv ∈ mapSet m k v := by
  induction m with
  | nil => cases h
  | cons e rest ih =>
    obtain ⟨k', v'⟩ := e
    rw [mapSet]
    rcases List.mem_cons.1 h with h | h
    · subst h
      rw [if_neg hne]
      exact List.mem_cons_self _ _
    · split
      · exact List.mem_cons_of_mem _ h
      · exact List.mem_cons_of_mem _ (ih h)

theorem mem_keys_mapSet (m : ResourceMap) (k : GoString) (v : SchemaResource) (k' : GoString) :
    k' ∈ (mapSet m k v).map (fun kv => kv.1) ↔ k' = k ∨ k' ∈ m.map (fun kv => kv.1) := by
  induction m with
  | nil => simp [mapSet]
  | cons e rest ih =>
    obtain ⟨k'', v''⟩ := e
    rw [mapSet]
    split
    · rename_i heq
      subst heq
      simp only [List.map_cons, List.mem_cons]
      tauto
    · simp only [List.map_cons, List.mem_cons, ih]
      tauto

theorem nodup_keys_mapSet (m : ResourceMap) (k : GoString) (v : SchemaResource)
    (h : (m.map (fun kv => kv.1)).Nodup) : ((mapSet m k v).map (fun kv => kv.1)).Nodup := by
  induction m with
  | nil => simp [mapSet]
  | cons e rest ih =>
    obtain ⟨k', v'⟩ := e
    rw [List.map_cons, List.nodup_cons] at h
    rw [mapSet]
    split
    · rename_i heq
      subst heq
      rw [List.map_cons, List.nodup_cons]
      exact h
    · rename_i hne
      rw [List.map_cons, List.nodup_cons]
      refine ⟨?_, ih h.2⟩
      intro hmem
      rcases (mem_keys_mapSet rest k v k').1 hmem with h' | h'
      · exact hne h'
      · exact h.1 h'

theorem RegistryInv_nil : RegistryInv [] :=
  ⟨List.nodup_nil, fun _ h => by cases h⟩

theorem RegistryInv_mapSet (m : ResourceMap) (r : SchemaResource) (h : RegistryInv m) :
    RegistryInv (mapSet m r.String r) := by
  refine ⟨nodup_keys_mapSet m _ r h.1, ?_⟩
  intro kv hkv
  rcases mem_mapSet m _ r kv hkv with h' | h'
  · rw [h']
  · exact h.2 kv h'

theorem mapSet_idem (m : ResourceMap) (k : GoString) (v : SchemaResource) :
    mapSet (mapSet m k v) k v = mapSet m k v := by
  induction m with
  | nil => simp [mapSet]
  | cons e rest ih =>
    obtain ⟨k', v'⟩ := e
    by_cases hk : k' = k
    · simp [mapSet, hk]
    · simp [mapSet, hk, ih]

theorem mapGet_mapSet_self (m : ResourceMap) (k : GoString) (v : SchemaResource) :
    mapGet (mapSet m k v) k = some v := by
  induction m with
  | nil => simp [mapSet, mapGet]
  | cons e rest ih =>
    obtain ⟨k', v'⟩ := e
    by_cases hk : k' = k
    · simp [mapSet, mapGet, hk]
    · simp [mapSet, mapGet, hk, ih]

/-! ## Lemmas on the walk -/

theorem EnterObject_ref_cases (toUpper : Char → Char) (l l' : snowsqlResourceExtractListener)
    (ctx : Object_refContext) (h : EnterObject_ref toUpper l ctx = some l') :
    (ctx.object_name = none ∧ l' = l) ∨
    ∃ name r, ctx.object_name = some name ∧
      resolveObjectName toUpper l.currentDatabase l.currentSchema name = some r ∧
      l' = { l with resourceMap := mapSet l.resourceMap r.String r } := by
  obtain ⟨oname⟩ := ctx
  cases oname with
  | none =>
    left
    refine ⟨rfl, ?_⟩
    rw [EnterObject_ref] at h
    exact (Option.some.inj h).symm
  | some name =>
    right
    rw [EnterObject_ref_eq] at h
    cases hr : resolveObjectName toUpper l.currentDatabase l.currentSchema name with
    | none =>
      rw [hr] at h
      cases h
    | some r =>
      rw [hr] at h
      exact ⟨name, r, rfl, hr, (Option.some.inj h).symm⟩

theorem EnterObject_ref_valid (toUpper : Char → Char) (l : snowsqlResourceExtractListener)
    (ctx : Object_refContext) (h : ctx.Valid) : ∃ l', EnterObject_ref toUpper l ctx = some l' := by
  obtain ⟨oname⟩ := ctx
  cases oname with
  | none => exact ⟨l, rfl⟩
  | some name =>
    obtain ⟨hd, hs, ho⟩ := h name rfl
    obtain ⟨r, hr⟩ := resolveObjectName_valid toUpper l.currentDatabase l.currentSchema name
      hd hs ho
    exact ⟨_, by rw [EnterObject_ref_eq, hr]; rfl⟩

theorem Walk_cons (toUpper : Char → Char) (l l' : snowsqlResourceExtractListener)
    (ctx : Object_refContext) (rest : List Object_refContext)
    (h : Walk toUpper l (ctx :: rest) = some l') :
    ∃ l1, EnterObject_ref toUpper l ctx = some l1 ∧ Walk toUpper l1 rest = some l' := by
  rw [Walk] at h
  cases h1 : EnterObject_ref toUpper l ctx with
  | none =>
    rw [h1] at h
    cases h
  | some l1 =>
    rw [h1] at h
    exact ⟨l1, rfl, h⟩

theorem EnterObject_ref_ambient (toUpper : Char → Char) (l l' : snowsqlResourceExtractListener)
    (ctx : Object_refContext) (h : EnterObject_ref toUpper l ctx = some l') :
    l'.currentDatabase = l.currentDatabase ∧ l'.currentSchema = l.currentSchema ∧
      (RegistryInv l.resourceMap → RegistryInv l'.resourceMap) := by
  rcases EnterObject_ref_cases toUpper l l' ctx h with ⟨-, h'⟩ | ⟨name, r, -, -, h'⟩
  · subst h'
    exact ⟨rfl, rfl, id⟩
  · subst h'
    exact ⟨rfl, rfl, RegistryInv_mapSet _ r⟩

theorem Walk_ambient (toUpper : Char → Char) (ctxs : List Object_refContext) :
    ∀ l l', Walk toUpper l ctxs = some l' →
      l'.currentDatabase = l.currentDatabase ∧ l'.currentSchema = l.currentSchema ∧
      (RegistryInv l.resourceMap → RegistryInv l'.resourceMap) := by
  induction ctxs with
  | nil =>
    intro l l' h
    rw [Walk] at h
    cases h
    exact ⟨rfl, rfl, id⟩
  | cons ctx rest ih =>
    intro l l' h
    obtain ⟨l1, h1, h2⟩ := Walk_cons toUpper l l' ctx rest h
    obtain ⟨a1, b1, c1⟩ := EnterObject_ref_ambient toUpper l l1 ctx h1
    obtain ⟨a2, b2, c2⟩ := ih l1 l' h2
    exact ⟨a2.trans a1, b2.trans b1, fun hi => c2 (c1 hi)⟩

theorem Walk_valid (toUpper : Char → Char) (ctxs : List Object_refContext) :
    ∀ l, (∀ ctx ∈ ctxs, ctx.Valid) → ∃ l', Walk toUpper l ctxs = some l' := by
  induction ctxs with
  | nil => exact fun l _ => ⟨l, rfl⟩
  | cons ctx rest ih =>
    intro l hv
    obtain ⟨l1, h1⟩ := EnterObject_ref_valid toUpper l ctx (hv ctx (List.mem_cons_self _ _))
    obtain ⟨l', h2⟩ := ih l1 (fun c hc => hv c (List.mem_cons_of_mem _ hc))
    exact ⟨l', by rw [Walk, h1]; exact h2⟩

/-- Every entry of the registry after the walk was there before it or is the
resolution of a visited node, stored under its canonical string. -/
theorem Walk_sound (toUpper : Char → Char) (ctxs : List Object_refContext) :
    ∀ l l', Walk toUpper l ctxs = some l' → ∀ kv ∈ l'.resourceMap,
      kv ∈ l.resourceMap ∨ ∃ ctx ∈ ctxs, ∃ name, ctx.object_name = some name ∧
        resolveObjectName toUpper l.currentDatabase l.currentSchema name = some kv.2 ∧
        kv.1 = kv.2.String := by
  induction ctxs with
  | nil =>
    intro l l' h kv hkv
    rw [Walk] at h
    cases h
    exact Or.inl hkv
  | cons ctx rest ih =>
    intro l l' h kv hkv
    obtain ⟨l1, h1, h2⟩ := Walk_cons toUpper l l' ctx rest h
    obtain ⟨a1, b1, -⟩ := EnterObject_ref_ambient toUpper l l1 ctx h1
    rcases ih l1 l' h2 kv hkv with hin | ⟨c, hc, name, hn, hr, hk⟩
    · rcases EnterObject_ref_cases toUpper l l1 ctx h1 with ⟨-, h'⟩ | ⟨name, r, hn, hr, h'⟩
      · subst h'
        exact Or.inl hin
      · subst h'
        rcases mem_mapSet _ _ _ kv hin with heq | hold
        · right
          refine ⟨ctx, List.mem_cons_self _ _, name, hn, ?_, ?_⟩
          · rw [heq]; exact hr
          · rw [heq]
        · exact Or.inl hold
    · right
      rw [a1, b1] at hr
      exact ⟨c, List.mem_cons_of_mem _ hc, name, hn, hr, hk⟩

/-- Every key of the registry stays a key, and the canonical string of the
resolution of every visited node is a key after the walk. -/
theorem Walk_keys (toUpper : Char → Char) (ctxs : List Object_refContext) :
    ∀ l l', Walk toUpper l ctxs = some l' →
      (∀ k ∈ l.resourceMap.map (fun kv => kv.1), k ∈ l'.resourceMap.map (fun kv => kv.1)) ∧
      ∀ ctx ∈ ctxs, ∀ name r, ctx.object_name = some name →
        resolveObjectName toUpper l.currentDatabase l.currentSchema name = some r →
        r.String ∈ l'.resourceMap.map (fun kv => kv.1) := by
  induction ctxs with
  | nil =>
    intro l l' h
    rw [Walk] at h
    cases h
    exact ⟨fun _ hk => hk, fun _ hc => by cases hc⟩
  | cons ctx rest ih =>
    intro l l' h
    obtain ⟨l1, h1, h2⟩ := Walk_cons toUpper l l' ctx rest h
    obtain ⟨a1, b1, -⟩ := EnterObject_ref_ambient toUpper l l1 ctx h1
    obtain ⟨ihk, ihc⟩ := ih l1 l' h2
    have hstep : ∀ k ∈ l.resourceMap.map (fun kv => kv.1),
        k ∈ l1.resourceMap.map (fun kv => kv.1) := by
      intro k hk
      rcases EnterObject_ref_cases toUpper l l1 ctx h1 with ⟨-, h'⟩ | ⟨name, r, hn, hr, h'⟩
      · subst h'
        exact hk
      · subst h'
        exact (mem_keys_mapSet _ _ _ k).2 (Or.inr hk)
    refine ⟨fun k hk => ihk k (hstep k hk), ?_⟩
    intro c hc name r hn hr
    rcases List.mem_cons.1 hc with hc | hc
    · subst hc
      rcases EnterObject_ref_cases toUpper l l1 c h1 with ⟨hnone, -⟩ | ⟨name', r', hn', hr', h'⟩
      · rw [hn] at hnone
        cases hnone
      · rw [hn] at hn'
        cases hn'
        rw [hr] at hr'
        cases hr'
        subst h'
        exact ihk _ ((mem_keys_mapSet _ _ _ _).2 (Or.inl rfl))
    · rw [← a1, ← b1] at hr
      exact ihc c hc name r hn hr

/-- A resource that every visited node with the same canonical string
resolves to is in the registry after the walk, if it was there before or is
the resolution of a visited node. -/
theorem Walk_complete (toUpper : Char → Char) (r : SchemaResource)
    (ctxs : List Object_refContext) :
    ∀ l l', Walk toUpper l ctxs = some l' →
      (∀ ctx ∈ ctxs, ∀ name r', ctx.object_name = some name →
        resolveObjectName toUpper l.currentDatabase l.currentSchema name = some r' →
        r'.String = r.String → r' = r) →
      ((r.String, r) ∈ l.resourceMap ∨ ∃ ctx ∈ ctxs, ∃ name, ctx.object_name = some name ∧
        resolveObjectName toUpper l.currentDatabase l.currentSchema name = some r) →
      (r.String, r) ∈ l'.resourceMap := by
  induction ctxs with
  | nil =>
    intro l l' h _ hin
    rw [Walk] at h
    cases h
    rcases hin with hin | ⟨c, hc, -⟩
    · exact hin
    · cases hc
  | cons ctx rest ih =>
    intro l l' h hinj hin
    obtain ⟨l1, h1, h2⟩ := Walk_cons toUpper l l' ctx rest h
    obtain ⟨a1, b1, -⟩ := EnterObject_ref_ambient toUpper l l1 ctx h1
    apply ih l1 l' h2
    · intro c hc name r' hn hr hs
      rw [a1, b1] at hr
      exact hinj c (List.mem_cons_of_mem _ hc) name r' hn hr hs
    · rcases EnterObject_ref_cases toUpper l l1 ctx h1 with ⟨hnone, h'⟩ | ⟨name1, r1, hn1, hr1, h'⟩
      · subst h'
        rcases hin with hin | ⟨c, hc, name, hn, hr⟩
        · exact Or.inl hin
        · rcases List.mem_cons.1 hc with hc | hc
          · subst hc
            rw [hn] at hnone
            cases hnone
          · exact Or.inr ⟨c, hc, name, hn, hr⟩
      · subst h'
        by_cases hs : r1.String = r.String
        · have h1r : r1 = r := hinj ctx (List.mem_cons_self _ _) name1 r1 hn1 hr1 hs
          subst h1r
          exact Or.inl (mapSet_mem_self _ _ _)
        · rcases hin with hin | ⟨c, hc, name, hn, hr⟩
          · exact Or.inl (mem_mapSet_of_ne _ _ _ _ hin (fun h => hs h.symm))
          · rcases List.mem_cons.1 hc with hc | hc
            · subst hc
              rw [hn] at hn1
              cases hn1
              rw [hr] at hr1
              cases hr1
              exact absurd rfl hs
            · exact Or.inr ⟨c, hc, name, hn, hr⟩

/-! ## Lemmas on the byte order -/

theorem bytesLess_irrefl (a : List Nat) : bytesLess a a = false := by
  induction a with
  | nil => rfl
  | cons x xs ih => simp [bytesLess, ih]

theorem bytesLess_trans (a : List Nat) :
    ∀ b c, bytesLess a b = true → bytesLess b c = true → bytesLess a c = true := by
  induction a with
  | nil =>
    intro b c h1 h2
    cases b with
    | nil => simp [bytesLess] at h1
    | cons y ys =>
      cases c with
      | nil => simp [bytesLess] at h2
      | cons z zs => rfl
  | cons x xs ih =>
    intro b c h1 h2
    cases b with
    | nil => simp [bytesLess] at h1
    | cons y ys =>
      cases c with
      | nil => simp [bytesLess] at h2
      | cons z zs =>
        simp only [bytesLess] at h1 h2 ⊢
        split_ifs at h1 h2 ⊢ <;> first
          | rfl
          | omega
          | exact ih ys zs h1 h2

theorem bytesLess_incomp_trans (a : List Nat) :
    ∀ b c, bytesLess a b = false → bytesLess b c = false → bytesLess a c = false := by
  induction a with
  | nil =>
    intro b c h1 h2
    cases b with
    | nil => exact h2
    | cons y ys => simp [bytesLess] at h1
  | cons x xs ih =>
    intro b c h1 h2
    cases b with
    | nil =>
      cases c with
      | nil => rfl
      | cons z zs => simp [bytesLess] at h2
    | cons y ys =>
      cases c with
      | nil => rfl
      | cons z zs =>
        simp only [bytesLess] at h1 h2 ⊢
        split_ifs at h1 h2 ⊢ <;> first
          | rfl
          | omega
          | exact ih ys zs h1 h2

theorem bytesLess_antisymm (a : List Nat) :
    ∀ b, bytesLess a b = false → bytesLess b a = false → a = b := by
  induction a with
  | nil =>
    intro b h1 _
    cases b with
    | nil => rfl
    | cons y ys => simp [bytesLess] at h1
  | cons x xs ih =>
    intro b h1 h2
    cases b with
    | nil => simp [bytesLess] at h2
    | cons y ys =>
      simp only [bytesLess] at h1 h2
      split_ifs at h1 h2 with hxy hyx
      have hx : x = y := by omega
      rw [hx, ih ys h1 h2]

/-! ## Lemmas on the UTF-8 encoding -/

theorem utf8EncodeRune_append_inj (c c' : Nat) (x y : List Nat)
    (hc : c < 0x110000) (hc' : c' < 0x110000)
    (h : utf8EncodeRune c ++ x = utf8EncodeRune c' ++ y) : c = c' ∧ x = y := by
  unfold utf8EncodeRune at h
  split_ifs at h <;>
    simp only [List.cons_append, List.nil_append, List.cons.injEq] at h <;>
    first
      | (exfalso; omega)
      | (refine ⟨by omega, ?_⟩; simp only [h])

theorem utf8Bytes_injective (a : GoString) : ∀ b, utf8Bytes a = utf8Bytes b → a = b := by
  induction a with
  | nil =>
    intro b h
    cases b with
    | nil => rfl
    | cons c' rest' =>
      exfalso
      rw [utf8Bytes, utf8Bytes, utf8EncodeRune] at h
      split_ifs at h <;> simp at h
  | cons c rest ih =>
    intro b h
    cases b with
    | nil =>
      exfalso
      rw [utf8Bytes, utf8Bytes, utf8EncodeRune] at h
      split_ifs at h <;> simp at h
    | cons c' rest' =>
      rw [utf8Bytes, utf8Bytes] at h
      have hv : ∀ ch : Char, ch.toNat < 0x110000 := by
        intro ch
        have := ch.valid
        rcases this with h1 | h2
        · exact Nat.lt_trans h1 (by decide)
        · exact h2.2
      obtain ⟨h1, h2⟩ := utf8EncodeRune_append_inj _ _ _ _ (hv c) (hv c') h
      have hcc : c = c' := Char.ext (UInt32.ext (by simpa [Char.toNat] using h1))
      rw [hcc, ih rest' h2]

/-! ## The order of `sort.Slice` on resources -/

theorem stringLess_antisymm (a b : GoString) (h1 : stringLess a b = false)
    (h2 : stringLess b a = false) : a = b :=
  utf8Bytes_injective a b (bytesLess_antisymm _ _ h1 h2)

theorem resourceLess_strictWeakOrder :
    StrictWeakOrder (fun a b : SchemaResource => stringLess a.String b.String) where
  irrefl := fun _ => bytesLess_irrefl _
  trans := fun _ _ _ h1 h2 => bytesLess_trans _ _ _ h1 h2
  incomp_trans := fun _ _ _ h1 h2 => bytesLess_incomp_trans _ _ _ h1 h2

/-! ## Lemmas on insertion sort -/

theorem insertSorted_perm {α : Type} (less : α → α → Bool) (x : α) (ys : List α) :
    (insertSorted less x ys).Perm (x :: ys) := by
  induction ys with
  | nil => exact List.Perm.refl _
  | cons y ys ih =>
    rw [insertSorted]
    split
    · exact List.Perm.refl _
    · exact ((List.Perm.cons y ih).trans (List.Perm.swap x y ys))

theorem insertionSortBy_perm {α : Type} (less : α → α → Bool) (xs : List α) :
    (insertionSortBy less xs).Perm xs := by
  induction xs with
  | nil => exact List.Perm.refl _
  | cons x xs ih =>
    rw [insertionSortBy]
    exact (insertSorted_perm less x _).trans (List.Perm.cons x ih)

theorem insertSorted_sorted {α : Type} (less : α → α → Bool) (hless : StrictWeakOrder less)
    (x : α) (ys : List α) (h : ys.Pairwise (fun a b => less b a = false)) :
    (insertSorted less x ys).Pairwise (fun a b => less b a = false) := by
  induction ys with
  | nil => simp [insertSorted]
  | cons y ys ih =>
    rw [List.pairwise_cons] at h
    rw [insertSorted]
    split
    · rename_i hxy
      have hyx : less y x = false := by
        cases hcase : less y x with
        | false => rfl
        | true =>
          have := hless.trans x y x hxy hcase
          rw [hless.irrefl] at this
          cases this
      rw [List.pairwise_cons]
      refine ⟨?_, List.pairwise_cons.2 h⟩
      intro z hz
      rcases List.mem_cons.1 hz with hz | hz
      · rw [hz]; exact hyx
      · exact hless.incomp_trans z y x (h.1 z hz) hyx
    · rename_i hxy
      rw [List.pairwise_cons]
      refine ⟨?_, ih h.2⟩
      intro z hz
      rcases List.mem_cons.1 ((insertSorted_perm less x ys).subset hz) with hz | hz
      · rw [hz]
        simpa using hxy
      · exact h.1 z hz

theorem insertionSortBy_sorted {α : Type} (less : α → α → Bool) (hless : StrictWeakOrder less)
    (xs : List α) : (insertionSortBy less xs).Pairwise (fun a b => less b a = false) := by
  induction xs with
  | nil => exact List.Pairwise.nil
  | cons x xs ih =>
    rw [insertionSortBy]
    exact insertSorted_sorted less hless x _ ih

theorem demoRuntime_lawful (tree : Tree) : (demoRuntime tree).Lawful where
  mapRange_perm := fun m => List.reverse_perm m
  sortSlice_perm := fun xs less => insertionSortBy_perm less xs
  sortSlice_sorted := fun xs less hless => insertionSortBy_sorted less hless xs

/-! ## Lemmas on extractSnowflakeResourceList -/

theorem extract_of_parse {ε : Type} (rt : GoRuntime ε) (cd cs statement : GoString)
    (tree : Tree) (hparse : ParseSnowSQL rt statement = (some tree, none)) :
    extractSnowflakeResourceList rt cd cs statement =
      (Walk rt.toUpper { currentDatabase := cd, currentSchema := cs, resourceMap := [] }
        tree.object_refs).map
        (fun l => (rt.sortSlice ((rt.mapRange l.resourceMap).map (fun kv => kv.2))
          (fun a b => stringLess a.String b.String), none)) := by
  unfold extractSnowflakeResourceList
  rw [hparse]
  simp only
  cases Walk rt.toUpper { currentDatabase := cd, currentSchema := cs, resourceMap := [] }
      tree.object_refs with
  | none => rfl
  | some l => rfl

theorem mem_sorted_iff {ε : Type} (rt : GoRuntime ε) (hrt : rt.Lawful) (m : ResourceMap)
    (r : SchemaResource) :
    r ∈ rt.sortSlice ((rt.mapRange m).map (fun kv => kv.2))
        (fun a b => stringLess a.String b.String) ↔ ∃ k, (k, r) ∈ m := by
  rw [(hrt.sortSlice_perm _ _).mem_iff, ((hrt.mapRange_perm m).map _).mem_iff, List.mem_map]
  constructor
  · rintro ⟨⟨k, v⟩, hkv, rfl⟩
    exact ⟨k, hkv⟩
  · rintro ⟨k, hk⟩
    exact ⟨(k, r), hk, rfl⟩

theorem sorted_strict {ε : Type} (rt : GoRuntime ε) (hrt : rt.Lawful) (m : ResourceMap)
    (hm : RegistryInv m) :
    (rt.sortSlice ((rt.mapRange m).map (fun kv => kv.2))
        (fun a b => stringLess a.String b.String)).Pairwise
      (fun a b => stringLess a.String b.String = true) := by
  have hsorted := hrt.sortSlice_sorted ((rt.mapRange m).map (fun kv => kv.2))
    (fun a b => stringLess a.String b.String) resourceLess_strictWeakOrder
  have hperm : (rt.sortSlice ((rt.mapRange m).map (fun kv => kv.2))
      (fun a b => stringLess a.String b.String)).Perm (m.map (fun kv => kv.2)) :=
    (hrt.sortSlice_perm _ _).trans ((hrt.mapRange_perm m).map _)
  have hkeys : (m.map (fun kv => kv.2)).map SchemaResource.String = m.map (fun kv => kv.1) := by
    rw [List.map_map]
    exact List.map_congr_left (fun kv hkv => (hm.2 kv hkv).symm)
  have hnodup : ((rt.sortSlice ((rt.mapRange m).map (fun kv => kv.2))
      (fun a b => stringLess a.String b.String)).map SchemaResource.String).Nodup := by
    rw [(hperm.map _).nodup_iff, hkeys]
    exact hm.1
  have hne := List.pairwise_map.1 hnodup
  refine (hsorted.and hne).imp ?_
  intro a b hab
  cases hlt : stringLess a.String b.String with
  | true => rfl
  | false => exact absurd (stringLess_antisymm _ _ hlt hab.1) hab.2

theorem stringsJoin_ne_nil (sep : GoString) (parts : List GoString) :
    (∃ p ∈ parts, p ≠ []) → stringsJoin parts sep ≠ [] := by
  induction parts with
  | nil => rintro ⟨p, hp, -⟩; cases hp
  | cons a rest ih =>
    rintro ⟨p, hp, hne⟩
    cases rest with
    | nil =>
      rw [stringsJoin]
      rcases List.mem_cons.1 hp with h | h
      · rw [← h]; exact hne
      · cases h
    | cons b rest' =>
      rw [stringsJoin]
      rcases List.mem_cons.1 hp with h | h
      · subst h
        simp [hne]
      · have := ih ⟨p, h, hne⟩
        simp [this]

/-- The result of `NormalizeObjectName` in terms of the normalized parts. -/
theorem NormalizeObjectName_eq (toUpper : Char → Char) (name : Object_nameContext) :
    NormalizeObjectName toUpper name =
      match NormalizeObjectNamePart toUpper name.d, NormalizeObjectNamePart toUpper name.s,
          NormalizeObjectNamePart toUpper name.o with
      | some nd, some ns, some no => some (stringsJoin (objectNameParts name nd ns no) dot)
      | _, _, _ => none := by
  obtain ⟨d, s, o⟩ := name
  unfold NormalizeObjectName objectNameParts
  rcases d with _ | d <;> rcases s with _ | s <;> rcases o with _ | o <;>
    simp only [NormalizeObjectNamePart] <;>
    (try generalize ExtractOrdinaryIdentifier toUpper d.text = rd) <;>
    (try generalize ExtractOrdinaryIdentifier toUpper s.text = rs) <;>
    (try generalize ExtractOrdinaryIdentifier toUpper o.text = ro) <;>
    (try rcases rd with _ | rd) <;> (try rcases rs with _ | rs) <;>
    (try rcases ro with _ | ro) <;>
    (try by_cases hd : rd = []) <;> (try by_cases hs : rs = []) <;>
    (try by_cases ho : ro = []) <;>
    simp_all

theorem upper_ascii_map (toUpper : Char → Char) (h : ASCIIUpper toUpper) (s : GoString)
    (hs : ∀ c ∈ s, c.toNat < 128) : s.map toUpper = s.map Char.toUpper :=
  List.map_congr_left (fun c hc => h c (hs c hc))

/-! ## Lemmas on resolutions and canonical strings -/

theorem Resolves_iff (toUpper : Char → Char) (cd cs : GoString) (ctx : Object_refContext)
    (r : SchemaResource) :
    Resolves toUpper cd cs ctx r ↔
      ∃ name, ctx.object_name = some name ∧ resolveObjectName toUpper cd cs name = some r := by
  unfold Resolves
  constructor
  · intro h
    rcases EnterObject_ref_cases toUpper _ _ ctx h with ⟨-, h'⟩ | ⟨name, r', hn, hr, h'⟩
    · cases h'
    · refine ⟨name, hn, ?_⟩
      rw [hr]
      simp only [mapSet, snowsqlResourceExtractListener.mk.injEq, List.cons.injEq,
        Prod.mk.injEq, true_and, and_true] at h'
      rw [h'.2]
  · rintro ⟨name, hn, hr⟩
    obtain ⟨oname⟩ := ctx
    simp only at hn
    subst hn
    rw [EnterObject_ref_eq, hr]
    rfl

/-- The entry `EnterObject_ref` writes for a node with a resolution. -/
theorem EnterObject_ref_of_Resolves (toUpper : Char → Char)
    (l : snowsqlResourceExtractListener) (ctx : Object_refContext) (r : SchemaResource)
    (h : Resolves toUpper l.currentDatabase l.currentSchema ctx r) :
    EnterObject_ref toUpper l ctx =
      some { l with resourceMap := mapSet l.resourceMap r.String r } := by
  obtain ⟨name, hn, hr⟩ := (Resolves_iff toUpper _ _ ctx r).1 h
  obtain ⟨oname⟩ := ctx
  simp only at hn
  subst hn
  rw [EnterObject_ref_eq, hr]
  rfl

theorem append_dot_inj (a : GoString) : ∀ (a' x y : GoString), NoDot a → NoDot a' →
    a ++ dot ++ x = a' ++ dot ++ y → a = a' ∧ x = y := by
  induction a with
  | nil =>
    intro a' x y _ ha' h
    cases a' with
    | nil =>
      simp only [List.nil_append, dot, List.singleton_append, List.cons.injEq, true_and] at h
      exact ⟨rfl, h⟩
    | cons c rest =>
      exfalso
      simp only [List.nil_append, dot, List.singleton_append, List.cons_append,
        List.cons.injEq] at h
      exact ha' (h.1 ▸ List.mem_cons_self _ _)
  | cons c rest ih =>
    intro a' x y ha ha' h
    cases a' with
    | nil =>
      exfalso
      simp only [List.nil_append, dot, List.singleton_append, List.cons_append,
        List.cons.injEq] at h
      exact ha (h.1 ▸ List.mem_cons_self _ _)
    | cons c' rest' =>
      simp only [List.cons_append, List.cons.injEq] at h
      obtain ⟨h1, h2⟩ := ih rest' x y (fun hm => ha (List.mem_cons_of_mem _ hm))
        (fun hm => ha' (List.mem_cons_of_mem _ hm)) h.2
      exact ⟨by rw [h.1, h1], h2⟩

/-- Resources without `.` in Database and Schema that have the same canonical
string are equal. -/
theorem String_inj_of_NoDot (v1 v2 : SchemaResource) (h1d : NoDot v1.Database)
    (h1s : NoDot v1.Schema) (h2d : NoDot v2.Database) (h2s : NoDot v2.Schema)
    (h : v1.String = v2.String) : v1 = v2 := by
  obtain ⟨d1, s1, t1⟩ := v1
  obtain ⟨d2, s2, t2⟩ := v2
  simp only [SchemaResource.String, List.append_assoc] at h
  simp only at h1d h1s h2d h2s
  have h' : d1 ++ dot ++ (s1 ++ (dot ++ t1)) = d2 ++ dot ++ (s2 ++ (dot ++ t2)) := by
    simpa only [List.append_assoc] using h
  obtain ⟨hd, hrest⟩ := append_dot_inj d1 d2 _ _ h1d h2d h'
  have hrest' : s1 ++ dot ++ t1 = s2 ++ dot ++ t2 := by
    simpa only [List.append_assoc] using hrest
  obtain ⟨hs, ht⟩ := append_dot_inj s1 s2 _ _ h1s h2s hrest'
  rw [hd, hs, ht]

theorem entry_of_EnterObject_ref_nil (toUpper : Char → Char) (cd cs : GoString)
    (ctx : Object_refContext) (k : GoString) (v : SchemaResource)
    (h : EnterObject_ref toUpper { currentDatabase := cd, currentSchema := cs, resourceMap := [] }
      ctx = some { currentDatabase := cd, currentSchema := cs, resourceMap := [(k, v)] }) :
    k = v.String ∧ Resolves toUpper cd cs ctx v := by
  rcases EnterObject_ref_cases toUpper _ _ ctx h with ⟨-, h'⟩ | ⟨name, r, hn, hr, h'⟩
  · cases h'
  · simp only [mapSet, snowsqlResourceExtractListener.mk.injEq, List.cons.injEq,
      Prod.mk.injEq, true_and, and_true] at h'
    obtain ⟨hk, hv⟩ := h'
    subst hv
    exact ⟨hk, (Resolves_iff toUpper cd cs ctx v).2 ⟨name, hn, hr⟩⟩

theorem SameUpToCase_normalize (toUpper : Char → Char) (p q : Option Id_Context)
    (h : SameUpToCase toUpper p q) :
    p.isSome = q.isSome ∧
      ∃ n, NormalizeObjectNamePart toUpper p = some n ∧
        NormalizeObjectNamePart toUpper q = some n := by
  cases p with
  | none =>
    cases q with
    | none => exact ⟨rfl, [], rfl, rfl⟩
    | some b => exact absurd h (by simp [SameUpToCase])
  | some a =>
    cases q with
    | none => exact absurd h (by simp [SameUpToCase])
    | some b =>
      obtain ⟨ha, hb, hab⟩ := h
      refine ⟨rfl, a.text.map toUpper, ?_, ?_⟩
      · exact normalize_unquoted toUpper a.text ha
      · rw [hab]
        exact normalize_unquoted toUpper b.text hb

theorem SameUpToCase_resolve (toUpper : Char → Char) (cd cs : GoString)
    (n1 n2 : Object_nameContext) (hd : SameUpToCase toUpper n1.d n2.d)
    (hs : SameUpToCase toUpper n1.s n2.s) (ho : SameUpToCase toUpper n1.o n2.o) :
    ∃ r, resolveObjectName toUpper cd cs n1 = some r ∧
      resolveObjectName toUpper cd cs n2 = some r := by
  obtain ⟨hd0, nd, hd1, hd2⟩ := SameUpToCase_normalize toUpper _ _ hd
  obtain ⟨hs0, ns, hs1, hs2⟩ := SameUpToCase_normalize toUpper _ _ hs
  obtain ⟨-, no, ho1, ho2⟩ := SameUpToCase_normalize toUpper _ _ ho
  refine ⟨_, by rw [resolveObjectName, hd1, hs1, ho1], ?_⟩
  rw [resolveObjectName, hd2, hs2, ho2, hd0, hs0]

/-- Two nodes with the same resolution, visited one after the other, leave
one entry in an empty registry, and the extraction returns that resource. -/
theorem extract_two_same {ε : Type} (rt : GoRuntime ε) (hrt : rt.Lawful) (cd cs : GoString)
    (ctx1 ctx2 : Object_refContext) (r : SchemaResource)
    (h1 : Resolves rt.toUpper cd cs ctx1 r) (h2 : Resolves rt.toUpper cd cs ctx2 r) :
    Walk rt.toUpper { currentDatabase := cd, currentSchema := cs, resourceMap := [] }
        [ctx1, ctx2] =
      some { currentDatabase := cd, currentSchema := cs, resourceMap := [(r.String, r)] } ∧
    ∀ statement, ParseSnowSQL rt statement = (some { object_refs := [ctx1, ctx2] }, none) →
      extractSnowflakeResourceList rt cd cs statement = some ([r], none) := by
  have hw : Walk rt.toUpper { currentDatabase := cd, currentSchema := cs, resourceMap := [] }
      [ctx1, ctx2] =
      some { currentDatabase := cd, currentSchema := cs, resourceMap := [(r.String, r)] } := by
    have e1 := EnterObject_ref_of_Resolves rt.toUpper
      { currentDatabase := cd, currentSchema := cs, resourceMap := [] } ctx1 r h1
    have e2 := EnterObject_ref_of_Resolves rt.toUpper
      { currentDatabase := cd, currentSchema := cs, resourceMap := [(r.String, r)] } ctx2 r h2
    rw [Walk, e1]
    simp only [mapSet]
    rw [Walk, e2]
    simp only [mapSet, if_true]
    rfl
  refine ⟨hw, ?_⟩
  intro statement hparse
  rw [extract_of_parse rt cd cs statement _ hparse, hw]
  simp only [Option.map]
  have hm : rt.mapRange [(r.String, r)] = [(r.String, r)] :=
    List.perm_singleton.1 (hrt.mapRange_perm _)
  rw [hm]
  simp only [List.map]
  rw [List.perm_singleton.1 (hrt.sortSlice_perm [r] _)]

/-- The registry after the walk over the nodes of a tree, started from the
empty registry, satisfies the registry invariant. -/
theorem Walk_nil_inv (toUpper : Char → Char) (cd cs : GoString)
    (ctxs : List Object_refContext) (l' : snowsqlResourceExtractListener)
    (h : Walk toUpper { currentDatabase := cd, currentSchema := cs, resourceMap := [] } ctxs =
      some l') : RegistryInv l'.resourceMap :=
  (Walk_ambient toUpper ctxs _ l' h).2.2 RegistryInv_nil

theorem ParseSnowSQL_demoRuntime (tree : Tree) (statement : GoString) :
    ParseSnowSQL (demoRuntime tree) statement = (some tree, none) := rfl

/-! ## Lemmas on the preprocessing of ParseSnowSQL -/

theorem dropWhile_append_of_all (p : Char → Bool) (u v : List Char)
    (h : ∀ c ∈ u, p c = true) : (u ++ v).dropWhile p = v.dropWhile p := by
  induction u with
  | nil => rfl
  | cons c rest ih =>
    rw [List.cons_append, List.dropWhile_cons_of_pos (h c (List.mem_cons_self _ _))]
    exact ih (fun x hx => h x (List.mem_cons_of_mem _ hx))

theorem head_dropWhile_not (p : Char → Bool) (l : List Char) :
    ∀ c, (l.dropWhile p).head? = some c → p c = false := by
  induction l with
  | nil => intro c h; cases h
  | cons x rest ih =>
    intro c h
    by_cases hx : p x = true
    · rw [List.dropWhile_cons_of_pos hx] at h
      exact ih c h
    · rw [List.dropWhile_cons_of_neg hx] at h
      simp only [List.head?_cons, Option.some.injEq] at h
      rw [← h]
      simpa using hx

theorem dropWhile_eq_self_of_head (p : Char → Bool) (l : List Char)
    (h : ∀ c, l.head? = some c → p c = false) : l.dropWhile p = l := by
  cases l with
  | nil => rfl
  | cons x rest =>
    have hx : ¬ p x = true := by
      rw [h x rfl]
      exact Bool.false_ne_true
    exact List.dropWhile_cons_of_neg hx

theorem dropWhile_split (p : Char → Bool) (l : List Char) :
    ∃ u, l = u ++ l.dropWhile p ∧ ∀ c ∈ u, p c = true := by
  induction l with
  | nil => exact ⟨[], rfl, fun _ h => by cases h⟩
  | cons x rest ih =>
    by_cases hx : p x = true
    · obtain ⟨u, hu, hall⟩ := ih
      refine ⟨x :: u, ?_, ?_⟩
      · rw [List.dropWhile_cons_of_pos hx, List.cons_append, ← hu]
      · intro c hc
        rcases List.mem_cons.1 hc with h | h
        · rw [h]; exact hx
        · exact hall c h
    · exact ⟨[], by rw [List.dropWhile_cons_of_neg hx]; rfl, fun _ h => by cases h⟩

/-- Trimming a text followed by runes of the cutset gives the trimmed text. -/
theorem stringsTrimRight_append (s w cutset : GoString)
    (hw : ∀ c ∈ w, cutset.contains c = true) :
    stringsTrimRight (s ++ w) cutset = stringsTrimRight s cutset := by
  unfold stringsTrimRight
  rw [List.reverse_append, dropWhile_append_of_all _ _ _ (fun c hc => hw c (List.mem_reverse.1 hc))]

/-- The last rune of a trimmed text is not in the cutset. -/
theorem stringsTrimRight_getLast (s cutset : GoString) :
    ∀ c, (stringsTrimRight s cutset).getLast? = some c → cutset.contains c = false := by
  intro c h
  unfold stringsTrimRight at h
  rw [List.getLast?_reverse] at h
  exact head_dropWhile_not _ _ c h

theorem stringsTrimRight_idem (s cutset : GoString) :
    stringsTrimRight (stringsTrimRight s cutset) cutset = stringsTrimRight s cutset := by
  have h := stringsTrimRight_getLast s cutset
  unfold stringsTrimRight at h ⊢
  rw [List.reverse_reverse]
  rw [dropWhile_eq_self_of_head]
  intro c hc
  apply h c
  rw [List.getLast?_reverse]
  exact hc

/-- A text is its trimmed text followed by runes of the cutset. -/
theorem stringsTrimRight_split (s cutset : GoString) :
    ∃ w, s = stringsTrimRight s cutset ++ w ∧ ∀ c ∈ w, cutset.contains c = true := by
  obtain ⟨u, hu, hall⟩ := dropWhile_split (fun c => cutset.contains c) s.reverse
  refine ⟨u.reverse, ?_, fun c hc => hall c (List.mem_reverse.1 hc)⟩
  unfold stringsTrimRight
  rw [← List.reverse_append, ← hu, List.reverse_reverse]

theorem lexerInput_eq (s : GoString) :
    lexerInput s = stringsTrimRight s " \t\n\r\x0c;".toList ++ ['\n', ';'] := rfl

theorem lexerInput_append (s w : GoString)
    (hw : ∀ c ∈ w, c ∈ " \t\n\r\x0c;".toList) : lexerInput (s ++ w) = lexerInput s := by
  unfold lexerInput
  rw [stringsTrimRight_append s w _ (fun c hc => by simpa using hw c hc)]

theorem lexerInput_idem (s : GoString) : lexerInput (lexerInput s) = lexerInput s := by
  unfold lexerInput
  rw [stringsTrimRight_append _ "\n;".toList " \t\n\r\x0c;".toList (by decide),
    stringsTrimRight_idem]

/-- The result of `ParseSnowSQL` in terms of what the generated lexer and
parser leave behind on the preprocessed text. -/
theorem ParseSnowSQL_eq {ε : Type} (rt : GoRuntime ε) (statement : GoString) :
    ParseSnowSQL rt statement =
      match (rt.snowflakeFile (lexerInput statement)).2.1,
          (rt.snowflakeFile (lexerInput statement)).2.2 with
      | some err, _ => (none, some err)
      | none, some err => (none, some err)
      | none, none => (some (rt.snowflakeFile (lexerInput statement)).1, none) := by
  show (match rt.snowflakeFile (lexerInput statement) with
    | (tree, lexerErr, parserErr) =>
      match lexerErr with
      | some err => (none, some err)
      | none =>
        match parserErr with
        | some err => (none, some err)
        | none => (some tree, none)) = _
  generalize rt.snowflakeFile (lexerInput statement) = r
  obtain ⟨t, le, pe⟩ := r
  cases le <;> cases pe <;> rfl

/-! ## Lemmas on error propagation, the keyword lookup and order independence -/

/-- The pair `ParseSnowSQL` returns is a tree without an error or an error
without a tree. -/
theorem ParseSnowSQL_shape {ε : Type} (rt : GoRuntime ε) (statement : GoString) :
    (∃ err, ParseSnowSQL rt statement = (none, some err)) ∨
      ∃ tree, ParseSnowSQL rt statement = (some tree, none) := by
  rw [ParseSnowSQL_eq]
  generalize rt.snowflakeFile (lexerInput statement) = r
  obtain ⟨t, le, pe⟩ := r
  cases le with
  | some e => exact Or.inl ⟨e, rfl⟩
  | none =>
    cases pe with
    | some e => exact Or.inl ⟨e, rfl⟩
    | none => exact Or.inr ⟨t, rfl⟩

theorem extract_of_error {ε : Type} (rt : GoRuntime ε) (cd cs statement : GoString)
    (t : Option Tree) (err : ε) (hparse : ParseSnowSQL rt statement = (t, some err)) :
    extractSnowflakeResourceList rt cd cs statement = some ([], some err) := by
  unfold extractSnowflakeResourceList
  rw [hparse]
  cases t <;> rfl

theorem mapIndexBool_true_iff (m : List (GoString × Bool)) (hall : ∀ kv ∈ m, kv.2 = true)
    (k : GoString) : mapIndexBool m k = true ↔ k ∈ m.map (fun kv => kv.1) := by
  induction m with
  | nil => simp [mapIndexBool]
  | cons e rest ih =>
    obtain ⟨k', v⟩ := e
    have hv : v = true := hall (k', v) (List.mem_cons_self _ _)
    have ih' := ih (fun kv hkv => hall kv (List.mem_cons_of_mem _ hkv))
    rw [mapIndexBool]
    by_cases hk : k' = k
    · rw [if_pos hk, hv]
      simp [hk]
    · rw [if_neg hk, ih']
      simp only [List.map_cons, List.mem_cons]
      constructor
      · exact Or.inr
      · rintro (h | h)
        · exact absurd h.symm hk
        · exact h

theorem snowflakeKeyword_all_true : ∀ kv ∈ snowflakeKeyword, kv.2 = true := by
  decide

/-- Two strictly ascending lists with the same elements are equal. -/
theorem eq_of_perm_of_strictly_sorted (xs ys : List SchemaResource) (hperm : xs.Perm ys)
    (hx : xs.Pairwise (fun a b => stringLess a.String b.String = true))
    (hy : ys.Pairwise (fun a b => stringLess a.String b.String = true)) : xs = ys := by
  haveI : IsAntisymm SchemaResource (fun a b => stringLess a.String b.String = true) :=
    ⟨fun a b hab hba => by
      have := bytesLess_trans _ _ _ hab hba
      rw [bytesLess_irrefl] at this
      cases this⟩
  exact List.eq_of_perm_of_sorted hperm hx hy

/-- The drained and sorted registry is the same for two lawful runtimes. -/
theorem sorted_drain_unique {ε : Type} (rt1 rt2 : GoRuntime ε) (h1 : rt1.Lawful)
    (h2 : rt2.Lawful) (m : ResourceMap) (hm : RegistryInv m) :
    rt1.sortSlice ((rt1.mapRange m).map (fun kv => kv.2))
        (fun a b => stringLess a.String b.String) =
      rt2.sortSlice ((rt2.mapRange m).map (fun kv => kv.2))
        (fun a b => stringLess a.String b.String) := by
  apply eq_of_perm_of_strictly_sorted _ _ _ (sorted_strict rt1 h1 m hm)
    (sorted_strict rt2 h2 m hm)
  have p1 := (h1.sortSlice_perm ((rt1.mapRange m).map (fun kv => kv.2))
    (fun a b => stringLess a.String b.String)).trans ((h1.mapRange_perm m).map _)
  have p2 := (h2.sortSlice_perm ((rt2.mapRange m).map (fun kv => kv.2))
    (fun a b => stringLess a.String b.String)).trans ((h2.mapRange_perm m).map _)
  exact p1.trans p2.symm

theorem demoRuntimeForward_lawful (tree : Tree) : (demoRuntimeForward tree).Lawful where
  mapRange_perm := fun m => List.Perm.refl m
  sortSlice_perm := fun xs less =>
    (insertionSortBy_perm less xs.reverse).trans (List.reverse_perm xs)
  sortSlice_sorted := fun xs less hless => insertionSortBy_sorted less hless xs.reverse

theorem mapGet_mapSet_ne (m : ResourceMap) (k : GoString) (v : SchemaResource)
    (k' : GoString) (hne : k' ≠ k) : mapGet (mapSet m k v) k' = mapGet m k' := by
  induction m with
  | nil =>
    simp only [mapSet, mapGet]
    rw [if_neg (fun h => hne h.symm)]
  | cons e rest ih =>
    obtain ⟨k'', v''⟩ := e
    by_cases hk : k'' = k
    · subst hk
      simp only [mapSet, mapGet, if_true]
      rw [if_neg (fun h => hne h.symm), if_neg (fun h => hne h.symm)]
    · simp only [mapSet, if_neg hk, mapGet, ih]

theorem length_mapSet (m : ResourceMap) (k : GoString) (v : SchemaResource) :
    (mapSet m k v).length =
      if k ∈ m.map (fun kv => kv.1) then m.length else m.length + 1 := by
  induction m with
  | nil => rfl
  | cons e rest ih =>
    obtain ⟨k', v'⟩ := e
    by_cases hk : k' = k
    · subst hk
      simp only [mapSet, if_true, List.length_cons, List.map_cons, List.mem_cons, true_or]
    · have hk' : ¬ k = k' := fun h => hk h.symm
      simp only [mapSet, if_neg hk, List.length_cons, ih, List.map_cons, List.mem_cons, hk',
        false_or]
      split <;> rfl

/-! # The claims -/

/-! ## C1: the entry stored by EnterObject_ref -/

/-- C1: for every ambient pair and every reference node whose object name has
optional parts d, s, o with normalized values `nd`, `ns`, `no`,
`EnterObject_ref` stores, under the key Database + "." + Schema + "." + Table,
the resource with Database = `nd` when d is present and `nd` is non-empty and
`currentDatabase` otherwise, Schema = `ns` when s is present and `ns` is
non-empty and `currentSchema` otherwise (taken as it is, also when empty: no
`PUBLIC` backfill), Table = `no`; the ambient pair is unchanged.  The one-part
reference `t` under (`DB1`, `SC1`) is stored as `{DB1, SC1, T}`. -/
theorem C1_EnterObject_ref_stores (toUpper : Char → Char)
    (l : snowsqlResourceExtractListener) (name : Object_nameContext) (nd ns no : GoString)
    (hd : NormalizeObjectNamePart toUpper name.d = some nd)
    (hs : NormalizeObjectNamePart toUpper name.s = some ns)
    (ho : NormalizeObjectNamePart toUpper name.o = some no) :
    (∃ l', EnterObject_ref toUpper l { object_name := some name } = some l' ∧
      l'.currentDatabase = l.currentDatabase ∧ l'.currentSchema = l.currentSchema ∧
      l'.resourceMap =
        mapSet l.resourceMap
          ((if name.d.isSome ∧ nd ≠ [] then nd else l.currentDatabase) ++ dot ++
            (if name.s.isSome ∧ ns ≠ [] then ns else l.currentSchema) ++ dot ++ no)
          { Database := if name.d.isSome ∧ nd ≠ [] then nd else l.currentDatabase,
            Schema := if name.s.isSome ∧ ns ≠ [] then ns else l.currentSchema,
            Table := no } ∧
      mapGet l'.resourceMap
          ((if name.d.isSome ∧ nd ≠ [] then nd else l.currentDatabase) ++ dot ++
            (if name.s.isSome ∧ ns ≠ [] then ns else l.currentSchema) ++ dot ++ no) =
        some { Database := if name.d.isSome ∧ nd ≠ [] then nd else l.currentDatabase,
               Schema := if name.s.isSome ∧ ns ≠ [] then ns else l.currentSchema,
               Table := no }) ∧
    (name.s = none → l.currentSchema = [] →
      ∃ l', EnterObject_ref toUpper l { object_name := some name } = some l' ∧
        ∀ kv ∈ l'.resourceMap, kv ∈ l.resourceMap ∨ kv.2.Schema = []) ∧
    (ASCIIUpper toUpper → ∀ m : ResourceMap,
      EnterObject_ref toUpper
          { currentDatabase := "DB1".toList, currentSchema := "SC1".toList, resourceMap := m }
          (refOf none none (some "t".toList)) =
        some { currentDatabase := "DB1".toList, currentSchema := "SC1".toList,
               resourceMap := mapSet m "DB1.SC1.T".toList
                 { Database := "DB1".toList, Schema := "SC1".toList, Table := "T".toList } }) := by
  have hres : resolveObjectName toUpper l.currentDatabase l.currentSchema name =
      some { Database := if name.d.isSome ∧ nd ≠ [] then nd else l.currentDatabase,
             Schema := if name.s.isSome ∧ ns ≠ [] then ns else l.currentSchema,
             Table := no } := by
    rw [resolveObjectName, hd, hs, ho]
  have henter : EnterObject_ref toUpper l { object_name := some name } =
      some { currentDatabase := l.currentDatabase, currentSchema := l.currentSchema,
             resourceMap := (mapSet l.resourceMap
              ((if name.d.isSome ∧ nd ≠ [] then nd else l.currentDatabase) ++ dot ++
                (if name.s.isSome ∧ ns ≠ [] then ns else l.currentSchema) ++ dot ++ no)
              { Database := if name.d.isSome ∧ nd ≠ [] then nd else l.currentDatabase,
                Schema := if name.s.isSome ∧ ns ≠ [] then ns else l.currentSchema,
                Table := no }) } := by
    rw [EnterObject_ref_eq, hres]
    rfl
  refine ⟨⟨_, henter, rfl, rfl, rfl, mapGet_mapSet_self _ _ _⟩, ?_, ?_⟩
  · intro hnone hempty
    refine ⟨_, henter, ?_⟩
    intro kv hkv
    rcases mem_mapSet _ _ _ kv hkv with h | h
    · right
      rw [h]
      simp [hnone, hempty]
    · exact Or.inl h
  · intro hup m
    have ht : ExtractOrdinaryIdentifier toUpper "t".toList = some "T".toList := by
      rw [normalize_unquoted toUpper _ (by decide)]
      have := hup 't' (by decide)
      simp only [String.toList, List.map, this]
      decide
    rw [refOf, EnterObject_ref_eq, resolveObjectName]
    simp only [Option.map, NormalizeObjectNamePart, ht]
    rfl

theorem C1_EnterObject_ref_stores_witness :
    (NormalizeObjectNamePart Char.toUpper (some { text := "\"db\"".toList }) = some "db".toList ∧
      NormalizeObjectNamePart Char.toUpper none = some [] ∧
      NormalizeObjectNamePart Char.toUpper (some { text := "t".toList }) = some "T".toList) ∧
    ∃ l', EnterObject_ref Char.toUpper
        { currentDatabase := "DB1".toList, currentSchema := [], resourceMap := [] }
        { object_name := some { d := some { text := "\"db\"".toList }, s := none,
                                 o := some { text := "t".toList } } } = some l' ∧
      l'.resourceMap = [("db..T".toList,
        { Database := "db".toList, Schema := [], Table := "T".toList })] := by
  have hd : NormalizeObjectNamePart Char.toUpper (some { text := "\"db\"".toList }) =
      some "db".toList := by
    rw [NormalizeObjectNamePart, ExtractOrdinaryIdentifier_eq]; decide
  have ho : NormalizeObjectNamePart Char.toUpper (some { text := "t".toList }) =
      some "T".toList := by
    rw [NormalizeObjectNamePart, ExtractOrdinaryIdentifier_eq]; decide
  refine ⟨⟨hd, rfl, ho⟩, ?_⟩
  obtain ⟨l', h1, -, -, h2, -⟩ := (C1_EnterObject_ref_stores Char.toUpper
    { currentDatabase := "DB1".toList, currentSchema := [], resourceMap := [] }
    { d := some { text := "\"db\"".toList }, s := none, o := some { text := "t".toList } }
    "db".toList [] "T".toList hd rfl ho).1
  exact ⟨l', h1, by rw [h2]; decide⟩

/-! ## C2 to C5: ExtractOrdinaryIdentifier -/

/-- C2: for every lexeme of length at least 2 that starts and ends with the
double quote, `ExtractOrdinaryIdentifier` returns the inner text (the lexeme
without its first and last rune) scanned left to right with every pair of
double quotes replaced by one and every other rune copied; the result does
not involve the upper-casing function. -/
theorem C2_ExtractOrdinaryIdentifier_quoted (toUpper : Char → Char) (lexeme : GoString)
    (hlen : 2 ≤ lexeme.length) (hp : lexeme.head? = some dquote)
    (hs : lexeme.getLast? = some dquote) :
    ExtractOrdinaryIdentifier toUpper lexeme =
      some (collapseQuotes (lexeme.drop 1).dropLast) :=
  normalize_quoted toUpper lexeme hlen hp hs

theorem C2_ExtractOrdinaryIdentifier_quoted_witness :
    (2 ≤ "\"a\"\"\"\"b\"\"\"".toList.length ∧
      "\"a\"\"\"\"b\"\"\"".toList.head? = some dquote ∧
      "\"a\"\"\"\"b\"\"\"".toList.getLast? = some dquote) ∧
    ExtractOrdinaryIdentifier Char.toUpper "\"a\"\"\"\"b\"\"\"".toList =
      some (collapseQuotes ("\"a\"\"\"\"b\"\"\"".toList.drop 1).dropLast) ∧
    collapseQuotes ("\"a\"\"\"\"b\"\"\"".toList.drop 1).dropLast = "a\"\"b\"".toList :=
  ⟨by decide, C2_ExtractOrdinaryIdentifier_quoted Char.toUpper "\"a\"\"\"\"b\"\"\"".toList
    (by decide) (by decide) (by decide), by decide⟩

/-- C3: quote round trip: for every text `t`, the quoted lexeme of `t` (every
double quote doubled, one double quote on each side) normalizes to `t`; the
lexeme `"Foo""Bar"` is the quoted lexeme of `Foo"Bar` and normalizes to it. -/
theorem C3_ExtractOrdinaryIdentifier_roundtrip (toUpper : Char → Char) (t : List Char) :
    ExtractOrdinaryIdentifier toUpper (quoteLexeme t) = some t ∧
    quoteLexeme "Foo\"Bar".toList = "\"Foo\"\"Bar\"".toList ∧
    ExtractOrdinaryIdentifier toUpper "\"Foo\"\"Bar\"".toList = some "Foo\"Bar".toList := by
  refine ⟨normalize_quoteLexeme toUpper t, by decide, ?_⟩
  have h : quoteLexeme "Foo\"Bar".toList = "\"Foo\"\"Bar\"".toList := by decide
  rw [← h]
  exact normalize_quoteLexeme toUpper _

/-- C4: for every lexeme that does not both start and end with the double
quote, `ExtractOrdinaryIdentifier` returns the lexeme with every rune replaced
by its upper-case form: the same number of runes, the rune at each index the
upper-case form of the rune of the lexeme at that index; `foo` normalizes to
`FOO` under an upper-casing that is the ASCII one on ASCII runes. -/
theorem C4_ExtractOrdinaryIdentifier_unquoted (toUpper : Char → Char) (lexeme : GoString)
    (hq : ¬ (lexeme.head? = some dquote ∧ lexeme.getLast? = some dquote)) :
    ExtractOrdinaryIdentifier toUpper lexeme = some (lexeme.map toUpper) ∧
    (lexeme.map toUpper).length = lexeme.length ∧
    (∀ i (h : i < lexeme.length), (lexeme.map toUpper)[i]? = some (toUpper lexeme[i])) ∧
    (ASCIIUpper toUpper → lexeme = "foo".toList →
      ExtractOrdinaryIdentifier toUpper lexeme = some "FOO".toList) := by
  have hmain := normalize_unquoted toUpper lexeme hq
  refine ⟨hmain, List.length_map _ _, ?_, ?_⟩
  · intro i h
    rw [List.getElem?_map, List.getElem?_eq_getElem h]
    rfl
  · intro hup hfoo
    rw [hmain, hfoo]
    have hf := hup 'f' (by decide)
    have ho := hup 'o' (by decide)
    simp only [String.toList, List.map, hf, ho]
    decide

theorem C4_ExtractOrdinaryIdentifier_unquoted_witness :
    ¬ ("a\"\"b".toList.head? = some dquote ∧ "a\"\"b".toList.getLast? = some dquote) ∧
    ExtractOrdinaryIdentifier Char.toUpper "a\"\"b".toList = some "A\"\"B".toList :=
  ⟨by decide, (C4_ExtractOrdinaryIdentifier_unquoted Char.toUpper "a\"\"b".toList (by decide)).1⟩

/-- C5, as the code has it: a lexeme other than the one-rune lexeme `"` is
normalized without a fault, as quoted exactly when it starts and ends with the
double quote, which for such a lexeme is the same as starting and ending with
it and having length at least 2. -/
theorem C5_ExtractOrdinaryIdentifier_total_of_ne_quote (toUpper : Char → Char)
    (lexeme : GoString) (hne : lexeme ≠ [dquote]) :
    ((lexeme.head? = some dquote ∧ lexeme.getLast? = some dquote) ↔
      (lexeme.head? = some dquote ∧ lexeme.getLast? = some dquote ∧ 2 ≤ lexeme.length)) ∧
    ExtractOrdinaryIdentifier toUpper lexeme =
      some (if lexeme.head? = some dquote ∧ lexeme.getLast? = some dquote
        then collapseQuotes (lexeme.drop 1).dropLast else lexeme.map toUpper) := by
  refine ⟨⟨fun h => ⟨h.1, h.2, quoted_length lexeme h.1 h.2 hne⟩, fun h => ⟨h.1, h.2.1⟩⟩, ?_⟩
  exact normalize_of_ne_quote toUpper lexeme hne

theorem C5_ExtractOrdinaryIdentifier_total_of_ne_quote_witness :
    "\"\"".toList ≠ [dquote] ∧
    ExtractOrdinaryIdentifier Char.toUpper "\"\"".toList = some [] :=
  ⟨by decide,
    (C5_ExtractOrdinaryIdentifier_total_of_ne_quote Char.toUpper "\"\"".toList (by decide)).2⟩

/-- C5, counterexample: the one-rune lexeme `"` starts and ends with the
double quote, so it is taken as quoted; the slice `identifier[1:0]` faults and
no string is returned, in particular not the string `"`. -/
theorem C5_ExtractOrdinaryIdentifier_lone_quote_faults :
    hasPrefixQuote "\"".toList = true ∧ hasSuffixQuote "\"".toList = true ∧
    goSlice "\"".toList 1 ("\"".toList.length - 1) = none ∧
    ExtractOrdinaryIdentifier Char.toUpper "\"".toList = none ∧
    ExtractOrdinaryIdentifier Char.toUpper "\"".toList ≠ some "\"".toList := by
  have h : ExtractOrdinaryIdentifier Char.toUpper "\"".toList = none := by
    rw [ExtractOrdinaryIdentifier_eq]
    decide
  refine ⟨by decide, by decide, by decide, h, ?_⟩
  rw [h]
  exact fun h' => Option.noConfusion h'

/-! ## C6 to C9: the registry and the returned list -/

/-- C6: for every ambient pair and every two reference nodes whose d, s and o
lexemes are unquoted and pairwise equal after upper-casing, `EnterObject_ref`
computes the same key and the same resource for both (on every registry the
two calls have the same outcome, and the second visit leaves the registry as
the first left it), so after both are visited, in either order, an empty
registry holds exactly one entry, and the extraction returns exactly that one
resource; the references `A.B.C` and `a.b.c` yield exactly `{A, B, C}`. -/
theorem C6_case_variants_one_entry {ε : Type} (rt : GoRuntime ε) (hrt : rt.Lawful)
    (cd cs : GoString) (n1 n2 : Object_nameContext)
    (hd : SameUpToCase rt.toUpper n1.d n2.d) (hs : SameUpToCase rt.toUpper n1.s n2.s)
    (ho : SameUpToCase rt.toUpper n1.o n2.o) :
    (∃ r : SchemaResource,
      EnterObject_ref rt.toUpper
          { currentDatabase := cd, currentSchema := cs, resourceMap := [] }
          { object_name := some n1 } =
        some { currentDatabase := cd, currentSchema := cs, resourceMap := [(r.String, r)] } ∧
      EnterObject_ref rt.toUpper
          { currentDatabase := cd, currentSchema := cs, resourceMap := [] }
          { object_name := some n2 } =
        some { currentDatabase := cd, currentSchema := cs, resourceMap := [(r.String, r)] } ∧
      Walk rt.toUpper { currentDatabase := cd, currentSchema := cs, resourceMap := [] }
          [{ object_name := some n1 }, { object_name := some n2 }] =
        some { currentDatabase := cd, currentSchema := cs, resourceMap := [(r.String, r)] } ∧
      Walk rt.toUpper { currentDatabase := cd, currentSchema := cs, resourceMap := [] }
          [{ object_name := some n2 }, { object_name := some n1 }] =
        some { currentDatabase := cd, currentSchema := cs, resourceMap := [(r.String, r)] } ∧
      ∀ statement,
        ParseSnowSQL rt statement =
          (some { object_refs := [{ object_name := some n1 }, { object_name := some n2 }] },
            none) →
        extractSnowflakeResourceList rt cd cs statement = some ([r], none)) ∧
    (∀ m : ResourceMap,
      EnterObject_ref rt.toUpper { currentDatabase := cd, currentSchema := cs, resourceMap := m }
          { object_name := some n1 } =
        EnterObject_ref rt.toUpper
          { currentDatabase := cd, currentSchema := cs, resourceMap := m }
          { object_name := some n2 } ∧
      ∃ l1, EnterObject_ref rt.toUpper
          { currentDatabase := cd, currentSchema := cs, resourceMap := m }
          { object_name := some n1 } = some l1 ∧
        EnterObject_ref rt.toUpper l1 { object_name := some n2 } = some l1) ∧
    (ASCIIUpper rt.toUpper → ∀ statement,
      ParseSnowSQL rt statement =
        (some { object_refs :=
          [refOf (some "A".toList) (some "B".toList) (some "C".toList),
           refOf (some "a".toList) (some "b".toList) (some "c".toList)] }, none) →
      extractSnowflakeResourceList rt cd cs statement =
        some ([{ Database := "A".toList, Schema := "B".toList, Table := "C".toList }], none)) := by
  obtain ⟨r, hr1, hr2⟩ := SameUpToCase_resolve rt.toUpper cd cs n1 n2 hd hs ho
  have hR1 : Resolves rt.toUpper cd cs { object_name := some n1 } r :=
    (Resolves_iff _ _ _ _ _).2 ⟨n1, rfl, hr1⟩
  have hR2 : Resolves rt.toUpper cd cs { object_name := some n2 } r :=
    (Resolves_iff _ _ _ _ _).2 ⟨n2, rfl, hr2⟩
  refine ⟨⟨r, hR1, hR2, (extract_two_same rt hrt cd cs _ _ r hR1 hR2).1,
    (extract_two_same rt hrt cd cs _ _ r hR2 hR1).1,
    (extract_two_same rt hrt cd cs _ _ r hR1 hR2).2⟩, ?_, ?_⟩
  · intro m
    refine ⟨?_, _, EnterObject_ref_of_Resolves rt.toUpper
      { currentDatabase := cd, currentSchema := cs, resourceMap := m } _ r hR1, ?_⟩
    · rw [EnterObject_ref_eq, EnterObject_ref_eq]
      simp only [hr1, hr2]
    · rw [EnterObject_ref_of_Resolves rt.toUpper _ _ r hR2]
      simp only [mapSet_idem]
  · intro hup statement hparse
    have hA : ExtractOrdinaryIdentifier rt.toUpper "A".toList = some "A".toList := by
      rw [normalize_unquoted rt.toUpper _ (by decide)]
      have := hup 'A' (by decide)
      simp only [String.toList, List.map, this]
      decide
    have hB : ExtractOrdinaryIdentifier rt.toUpper "B".toList = some "B".toList := by
      rw [normalize_unquoted rt.toUpper _ (by decide)]
      have := hup 'B' (by decide)
      simp only [String.toList, List.map, this]
      decide
    have hC : ExtractOrdinaryIdentifier rt.toUpper "C".toList = some "C".toList := by
      rw [normalize_unquoted rt.toUpper _ (by decide)]
      have := hup 'C' (by decide)
      simp only [String.toList, List.map, this]
      decide
    have ha : ExtractOrdinaryIdentifier rt.toUpper "a".toList = some "A".toList := by
      rw [normalize_unquoted rt.toUpper _ (by decide)]
      have := hup 'a' (by decide)
      simp only [String.toList, List.map, this]
      decide
    have hb : ExtractOrdinaryIdentifier rt.toUpper "b".toList = some "B".toList := by
      rw [normalize_unquoted rt.toUpper _ (by decide)]
      have := hup 'b' (by decide)
      simp only [String.toList, List.map, this]
      decide
    have hc : ExtractOrdinaryIdentifier rt.toUpper "c".toList = some "C".toList := by
      rw [normalize_unquoted rt.toUpper _ (by decide)]
      have := hup 'c' (by decide)
      simp only [String.toList, List.map, this]
      decide
    have hABC : Resolves rt.toUpper cd cs
        (refOf (some "A".toList) (some "B".toList) (some "C".toList))
        { Database := "A".toList, Schema := "B".toList, Table := "C".toList } := by
      rw [Resolves_iff]
      refine ⟨_, rfl, ?_⟩
      simp only [resolveObjectName, Option.map, NormalizeObjectNamePart, hA, hB, hC]
      rw [if_pos ⟨rfl, by decide⟩, if_pos ⟨rfl, by decide⟩]
    have habc : Resolves rt.toUpper cd cs
        (refOf (some "a".toList) (some "b".toList) (some "c".toList))
        { Database := "A".toList, Schema := "B".toList, Table := "C".toList } := by
      rw [Resolves_iff]
      refine ⟨_, rfl, ?_⟩
      simp only [resolveObjectName, Option.map, NormalizeObjectNamePart, ha, hb, hc]
      rw [if_pos ⟨rfl, by decide⟩, if_pos ⟨rfl, by decide⟩]
    exact (extract_two_same rt hrt cd cs _ _ _ hABC habc).2 statement hparse

theorem C6_case_variants_one_entry_witness :
    (demoRuntime { object_refs :=
        [refOf (some "Ab".toList) none (some "t".toList),
         refOf (some "aB".toList) none (some "T".toList)] }).Lawful ∧
    SameUpToCase Char.toUpper (some { text := "Ab".toList }) (some { text := "aB".toList }) ∧
    SameUpToCase Char.toUpper none none ∧
    SameUpToCase Char.toUpper (some { text := "t".toList }) (some { text := "T".toList }) ∧
    extractSnowflakeResourceList
        (demoRuntime { object_refs :=
          [refOf (some "Ab".toList) none (some "t".toList),
           refOf (some "aB".toList) none (some "T".toList)] })
        "DB1".toList "SC1".toList "SELECT * FROM Ab..t, aB..T".toList =
      some ([{ Database := "AB".toList, Schema := "SC1".toList, Table := "T".toList }],
        none) := by
  have hd : SameUpToCase Char.toUpper (some { text := "Ab".toList })
      (some { text := "aB".toList }) := ⟨by decide, by decide, by decide⟩
  have ho : SameUpToCase Char.toUpper (some { text := "t".toList })
      (some { text := "T".toList }) := ⟨by decide, by decide, by decide⟩
  refine ⟨demoRuntime_lawful _, hd, trivial, ho, ?_⟩
  obtain ⟨r, h1, -, -, -, h5⟩ := (C6_case_variants_one_entry
    (demoRuntime { object_refs :=
      [refOf (some "Ab".toList) none (some "t".toList),
       refOf (some "aB".toList) none (some "T".toList)] })
    (demoRuntime_lawful _) "DB1".toList "SC1".toList
    { d := some { text := "Ab".toList }, s := none, o := some { text := "t".toList } }
    { d := some { text := "aB".toList }, s := none, o := some { text := "T".toList } }
    hd trivial ho).1
  have hr : r = { Database := "AB".toList, Schema := "SC1".toList, Table := "T".toList } := by
    simp only [demoRuntime, EnterObject_ref_eq, resolveObjectName, NormalizeObjectNamePart,
      ExtractOrdinaryIdentifier_eq, Option.map] at h1
    have h1' := Option.some.inj h1
    simp only [mapSet, snowsqlResourceExtractListener.mk.injEq, List.cons.injEq,
      Prod.mk.injEq, true_and, and_true] at h1'
    rw [← h1'.2]
    decide
  rw [← hr]
  exact h5 _ (ParseSnowSQL_demoRuntime _ _)

/-- C7: for every ambient pair and every sequence of reference nodes visited
by the walk, the sequence returned by `extractSnowflakeResourceList` is in
strictly ascending order of the canonical string under byte-wise
lexicographic comparison, so no two of its elements have the same canonical
string; the call returns a sequence whenever no identifier of a node is the
one-rune text on which the normalizer faults. -/
theorem C7_result_strictly_sorted {ε : Type} (rt : GoRuntime ε) (hrt : rt.Lawful)
    (cd cs statement : GoString) (tree : Tree)
    (hparse : ParseSnowSQL rt statement = (some tree, none)) :
    (∀ result err, extractSnowflakeResourceList rt cd cs statement = some (result, err) →
      result.Pairwise
        (fun a b => bytesLess (utf8Bytes a.String) (utf8Bytes b.String) = true) ∧
      (result.map SchemaResource.String).Nodup) ∧
    ((∀ ctx ∈ tree.object_refs, ctx.Valid) →
      ∃ result, extractSnowflakeResourceList rt cd cs statement = some (result, none)) := by
  constructor
  · intro result err hres
    rw [extract_of_parse rt cd cs statement tree hparse] at hres
    cases hw : Walk rt.toUpper { currentDatabase := cd, currentSchema := cs, resourceMap := [] }
        tree.object_refs with
    | none =>
      rw [hw] at hres
      cases hres
    | some l =>
      rw [hw] at hres
      simp only [Option.map, Option.some.injEq, Prod.mk.injEq] at hres
      have hs := sorted_strict rt hrt l.resourceMap (Walk_nil_inv rt.toUpper cd cs _ l hw)
      rw [hres.1] at hs
      refine ⟨hs, ?_⟩
      rw [List.Nodup, List.pairwise_map]
      refine hs.imp ?_
      intro a b hab heq
      have hirr := bytesLess_irrefl (utf8Bytes b.String)
      rw [stringLess, heq, hirr] at hab
      cases hab
  · intro hvalid
    obtain ⟨l, hw⟩ := Walk_valid rt.toUpper tree.object_refs
      { currentDatabase := cd, currentSchema := cs, resourceMap := [] } hvalid
    exact ⟨_, by rw [extract_of_parse rt cd cs statement tree hparse, hw]; rfl⟩

theorem C7_result_strictly_sorted_witness :
    (demoRuntime { object_refs :=
        [refOf (some "b".toList) none (some "t2".toList),
         refOf none none (some "\"é\"".toList),
         refOf (some "B".toList) (some "".toList) (some "T2".toList)] }).Lawful ∧
    ParseSnowSQL
        (demoRuntime { object_refs :=
          [refOf (some "b".toList) none (some "t2".toList),
           refOf none none (some "\"é\"".toList),
           refOf (some "B".toList) (some "".toList) (some "T2".toList)] })
        "SELECT 1".toList =
      (some { object_refs :=
        [refOf (some "b".toList) none (some "t2".toList),
         refOf none none (some "\"é\"".toList),
         refOf (some "B".toList) (some "".toList) (some "T2".toList)] }, none) ∧
    extractSnowflakeResourceList
        (demoRuntime { object_refs :=
          [refOf (some "b".toList) none (some "t2".toList),
           refOf none none (some "\"é\"".toList),
           refOf (some "B".toList) (some "".toList) (some "T2".toList)] })
        "B".toList "S".toList "SELECT 1".toList =
      some ([{ Database := "B".toList, Schema := "S".toList, Table := "T2".toList },
             { Database := "B".toList, Schema := "S".toList, Table := "é".toList }], none) ∧
    List.Pairwise
      (fun a b : SchemaResource => bytesLess (utf8Bytes a.String) (utf8Bytes b.String) = true)
      [{ Database := "B".toList, Schema := "S".toList, Table := "T2".toList },
       { Database := "B".toList, Schema := "S".toList, Table := "é".toList }] := by
  have heval : extractSnowflakeResourceList
      (demoRuntime { object_refs :=
        [refOf (some "b".toList) none (some "t2".toList),
         refOf none none (some "\"é\"".toList),
         refOf (some "B".toList) (some "".toList) (some "T2".toList)] })
      "B".toList "S".toList "SELECT 1".toList =
      some ([{ Database := "B".toList, Schema := "S".toList, Table := "T2".toList },
             { Database := "B".toList, Schema := "S".toList, Table := "é".toList }], none) := by
    rw [extract_of_parse _ _ _ _ _ (ParseSnowSQL_demoRuntime _ _)]
    simp only [demoRuntime, Walk, refOf, Option.map, EnterObject_ref_eq, resolveObjectName,
      NormalizeObjectNamePart, ExtractOrdinaryIdentifier_eq]
    decide
  exact ⟨demoRuntime_lawful _, rfl, heval,
    ((C7_result_strictly_sorted _ (demoRuntime_lawful _) _ _ _ _
      (ParseSnowSQL_demoRuntime _ _)).1 _ _ heval).1⟩

/-- C8, as the code has it: for every ambient pair and every two reference
nodes for which `EnterObject_ref` computes the same registry key, if the
Database and the Schema of both resources contain no `.`, the two resources
are equal in all three fields, and visiting the second node after the first
leaves the registry as the first visit left it. -/
theorem C8_same_key_same_resource_of_no_dot (toUpper : Char → Char) (cd cs : GoString)
    (ctx1 ctx2 : Object_refContext) (k1 k2 : GoString) (v1 v2 : SchemaResource)
    (h1 : EnterObject_ref toUpper
        { currentDatabase := cd, currentSchema := cs, resourceMap := [] } ctx1 =
      some { currentDatabase := cd, currentSchema := cs, resourceMap := [(k1, v1)] })
    (h2 : EnterObject_ref toUpper
        { currentDatabase := cd, currentSchema := cs, resourceMap := [] } ctx2 =
      some { currentDatabase := cd, currentSchema := cs, resourceMap := [(k2, v2)] })
    (hk : k1 = k2)
    (hdot : NoDot v1.Database ∧ NoDot v1.Schema ∧ NoDot v2.Database ∧ NoDot v2.Schema) :
    (v1.Database = v2.Database ∧ v1.Schema = v2.Schema ∧ v1.Table = v2.Table) ∧
    ∀ m : ResourceMap, ∃ l1,
      EnterObject_ref toUpper { currentDatabase := cd, currentSchema := cs, resourceMap := m }
        ctx1 = some l1 ∧
      EnterObject_ref toUpper l1 ctx2 = some l1 := by
  obtain ⟨hk1, hR1⟩ := entry_of_EnterObject_ref_nil toUpper cd cs ctx1 k1 v1 h1
  obtain ⟨hk2, hR2⟩ := entry_of_EnterObject_ref_nil toUpper cd cs ctx2 k2 v2 h2
  have hv : v1 = v2 := String_inj_of_NoDot v1 v2 hdot.1 hdot.2.1 hdot.2.2.1 hdot.2.2.2
    (by rw [← hk1, ← hk2, hk])
  subst hv
  refine ⟨⟨rfl, rfl, rfl⟩, ?_⟩
  intro m
  refine ⟨_, EnterObject_ref_of_Resolves toUpper
    { currentDatabase := cd, currentSchema := cs, resourceMap := m } ctx1 v1 hR1, ?_⟩
  rw [EnterObject_ref_of_Resolves toUpper _ ctx2 v1 hR2]
  simp only [mapSet_idem]

theorem C8_same_key_same_resource_of_no_dot_witness :
    (EnterObject_ref Char.toUpper
        { currentDatabase := "DB1".toList, currentSchema := "SC1".toList, resourceMap := [] }
        (refOf none (some "s".toList) (some "\"t.1\"".toList)) =
      some { currentDatabase := "DB1".toList, currentSchema := "SC1".toList,
             resourceMap := [("DB1.S.t.1".toList,
               { Database := "DB1".toList, Schema := "S".toList, Table := "t.1".toList })] } ∧
    EnterObject_ref Char.toUpper
        { currentDatabase := "DB1".toList, currentSchema := "SC1".toList, resourceMap := [] }
        (refOf (some "db1".toList) (some "\"S\"".toList) (some "\"t.1\"".toList)) =
      some { currentDatabase := "DB1".toList, currentSchema := "SC1".toList,
             resourceMap := [("DB1.S.t.1".toList,
               { Database := "DB1".toList, Schema := "S".toList, Table := "t.1".toList })] } ∧
    NoDot "DB1".toList ∧ NoDot "S".toList) ∧
    ∃ l1, EnterObject_ref Char.toUpper
        { currentDatabase := "DB1".toList, currentSchema := "SC1".toList, resourceMap := [] }
        (refOf none (some "s".toList) (some "\"t.1\"".toList)) = some l1 ∧
      EnterObject_ref Char.toUpper l1
        (refOf (some "db1".toList) (some "\"S\"".toList) (some "\"t.1\"".toList)) = some l1 := by
  have h1 : EnterObject_ref Char.toUpper
      { currentDatabase := "DB1".toList, currentSchema := "SC1".toList, resourceMap := [] }
      (refOf none (some "s".toList) (some "\"t.1\"".toList)) =
      some { currentDatabase := "DB1".toList, currentSchema := "SC1".toList,
             resourceMap := [("DB1.S.t.1".toList,
               { Database := "DB1".toList, Schema := "S".toList, Table := "t.1".toList })] } := by
    simp only [refOf, Option.map, EnterObject_ref_eq, resolveObjectName,
      NormalizeObjectNamePart, ExtractOrdinaryIdentifier_eq]
    decide
  have h2 : EnterObject_ref Char.toUpper
      { currentDatabase := "DB1".toList, currentSchema := "SC1".toList, resourceMap := [] }
      (refOf (some "db1".toList) (some "\"S\"".toList) (some "\"t.1\"".toList)) =
      some { currentDatabase := "DB1".toList, currentSchema := "SC1".toList,
             resourceMap := [("DB1.S.t.1".toList,
               { Database := "DB1".toList, Schema := "S".toList, Table := "t.1".toList })] } := by
    simp only [refOf, Option.map, EnterObject_ref_eq, resolveObjectName,
      NormalizeObjectNamePart, ExtractOrdinaryIdentifier_eq]
    decide
  have hd : NoDot "DB1".toList := by unfold NoDot; decide
  have hs : NoDot "S".toList := by unfold NoDot; decide
  exact ⟨⟨h1, h2, hd, hs⟩,
    (C8_same_key_same_resource_of_no_dot Char.toUpper "DB1".toList "SC1".toList _ _ _ _ _ _
      h1 h2 rfl ⟨hd, hs, hd, hs⟩).2 []⟩

/-- C8, counterexample: under the empty ambient pair the references
`"a.b"."c"."t"` and `"a"."b.c"."t"` both get the registry key `a.b.c.t`, with
the different resources `{a.b, c, t}` and `{a, b.c, t}`; visiting the second
after the first replaces the stored value. -/
theorem C8_same_key_different_resource :
    EnterObject_ref Char.toUpper
        { currentDatabase := [], currentSchema := [], resourceMap := [] }
        (refOf (some "\"a.b\"".toList) (some "\"c\"".toList) (some "\"t\"".toList)) =
      some { currentDatabase := [], currentSchema := [],
             resourceMap := [("a.b.c.t".toList,
               { Database := "a.b".toList, Schema := "c".toList, Table := "t".toList })] } ∧
    EnterObject_ref Char.toUpper
        { currentDatabase := [], currentSchema := [], resourceMap := [] }
        (refOf (some "\"a\"".toList) (some "\"b.c\"".toList) (some "\"t\"".toList)) =
      some { currentDatabase := [], currentSchema := [],
             resourceMap := [("a.b.c.t".toList,
               { Database := "a".toList, Schema := "b.c".toList, Table := "t".toList })] } ∧
    ({ Database := "a.b".toList, Schema := "c".toList, Table := "t".toList } : SchemaResource) ≠
      { Database := "a".toList, Schema := "b.c".toList, Table := "t".toList } ∧
    Walk Char.toUpper { currentDatabase := [], currentSchema := [], resourceMap := [] }
        [refOf (some "\"a.b\"".toList) (some "\"c\"".toList) (some "\"t\"".toList),
         refOf (some "\"a\"".toList) (some "\"b.c\"".toList) (some "\"t\"".toList)] =
      some { currentDatabase := [], currentSchema := [],
             resourceMap := [("a.b.c.t".toList,
               { Database := "a".toList, Schema := "b.c".toList, Table := "t".toList })] } := by
  refine ⟨?_, ?_, by decide, ?_⟩
  · simp only [refOf, Option.map, EnterObject_ref_eq, resolveObjectName,
      NormalizeObjectNamePart, ExtractOrdinaryIdentifier_eq]
    decide
  · simp only [refOf, Option.map, EnterObject_ref_eq, resolveObjectName,
      NormalizeObjectNamePart, ExtractOrdinaryIdentifier_eq]
    decide
  · simp only [Walk, refOf, Option.map, EnterObject_ref_eq, resolveObjectName,
      NormalizeObjectNamePart, ExtractOrdinaryIdentifier_eq]
    decide

/-- C9, as the code has it: for every ambient pair and every sequence of
reference nodes visited by the walk, every returned resource is the
resolution of some visited node; for every visited node the returned list
holds a resource with the canonical string of the node's resolution, and it
holds the resolution itself when every visited node whose resolution has that
canonical string has that resolution, which is so when no Database and no
Schema of a resolution of a visited node contains `.`.  The call returns a
list whenever no identifier of a node is the one-rune text on which the
normalizer faults. -/
theorem C9_result_set {ε : Type} (rt : GoRuntime ε) (hrt : rt.Lawful)
    (cd cs statement : GoString) (tree : Tree)
    (hparse : ParseSnowSQL rt statement = (some tree, none)) :
    (∀ result err, extractSnowflakeResourceList rt cd cs statement = some (result, err) →
      (∀ r ∈ result, ∃ ctx ∈ tree.object_refs, Resolves rt.toUpper cd cs ctx r) ∧
      (∀ ctx ∈ tree.object_refs, ∀ r, Resolves rt.toUpper cd cs ctx r →
        (∃ r' ∈ result, r'.String = r.String) ∧
        ((∀ ctx' ∈ tree.object_refs, ∀ r', Resolves rt.toUpper cd cs ctx' r' →
            r'.String = r.String → r' = r) → r ∈ result)) ∧
      ((∀ ctx ∈ tree.object_refs, ∀ r, Resolves rt.toUpper cd cs ctx r →
          NoDot r.Database ∧ NoDot r.Schema) →
        ∀ ctx ∈ tree.object_refs, ∀ r, Resolves rt.toUpper cd cs ctx r → r ∈ result)) ∧
    ((∀ ctx ∈ tree.object_refs, ctx.Valid) →
      ∃ result, extractSnowflakeResourceList rt cd cs statement = some (result, none)) := by
  constructor
  · intro result err hres
    rw [extract_of_parse rt cd cs statement tree hparse] at hres
    cases hw : Walk rt.toUpper { currentDatabase := cd, currentSchema := cs, resourceMap := [] }
        tree.object_refs with
    | none =>
      rw [hw] at hres
      cases hres
    | some l =>
      rw [hw] at hres
      simp only [Option.map, Option.some.injEq, Prod.mk.injEq] at hres
      have hmem : ∀ r, r ∈ result ↔ ∃ k, (k, r) ∈ l.resourceMap := by
        intro r
        rw [← hres.1]
        exact mem_sorted_iff rt hrt l.resourceMap r
      have hinv := Walk_nil_inv rt.toUpper cd cs _ l hw
      have hcomplete : ∀ ctx ∈ tree.object_refs, ∀ r, Resolves rt.toUpper cd cs ctx r →
          (∀ ctx' ∈ tree.object_refs, ∀ r', Resolves rt.toUpper cd cs ctx' r' →
            r'.String = r.String → r' = r) → r ∈ result := by
        intro ctx hctx r hr hinj
        obtain ⟨name, hn, hrn⟩ := (Resolves_iff _ _ _ _ _).1 hr
        rw [hmem]
        refine ⟨r.String, Walk_complete rt.toUpper r tree.object_refs _ l hw ?_
          (Or.inr ⟨ctx, hctx, name, hn, hrn⟩)⟩
        intro ctx' hctx' name' r' hn' hr' hs
        exact hinj ctx' hctx' r' ((Resolves_iff _ _ _ _ _).2 ⟨name', hn', hr'⟩) hs
      refine ⟨?_, ?_, ?_⟩
      · intro r hr
        obtain ⟨k, hk⟩ := (hmem r).1 hr
        rcases Walk_sound rt.toUpper tree.object_refs _ l hw (k, r) hk with
          hnil | ⟨ctx, hctx, name, hn, hrn, -⟩
        · cases hnil
        · exact ⟨ctx, hctx, (Resolves_iff _ _ _ _ _).2 ⟨name, hn, hrn⟩⟩
      · intro ctx hctx r hr
        refine ⟨?_, hcomplete ctx hctx r hr⟩
        obtain ⟨name, hn, hrn⟩ := (Resolves_iff _ _ _ _ _).1 hr
        have hkey := (Walk_keys rt.toUpper tree.object_refs _ l hw).2 ctx hctx name r hn hrn
        obtain ⟨⟨k, v⟩, hkv, hkeq⟩ := List.mem_map.1 hkey
        simp only at hkeq
        refine ⟨v, (hmem v).2 ⟨k, hkv⟩, ?_⟩
        rw [← hkeq]
        exact (hinv.2 (k, v) hkv).symm
      · intro hnodot ctx hctx r hr
        refine hcomplete ctx hctx r hr ?_
        intro ctx' hctx' r' hr' hs
        obtain ⟨a1, a2⟩ := hnodot ctx' hctx' r' hr'
        obtain ⟨b1, b2⟩ := hnodot ctx hctx r hr
        exact String_inj_of_NoDot r' r a1 a2 b1 b2 hs
  · intro hvalid
    obtain ⟨l, hw⟩ := Walk_valid rt.toUpper tree.object_refs
      { currentDatabase := cd, currentSchema := cs, resourceMap := [] } hvalid
    exact ⟨_, by rw [extract_of_parse rt cd cs statement tree hparse, hw]; rfl⟩

theorem C9_result_set_witness :
    (demoRuntime { object_refs :=
        [refOf none none (some "t".toList), { object_name := none },
         refOf (some "\"d\"".toList) none (some "u".toList)] }).Lawful ∧
    ParseSnowSQL
        (demoRuntime { object_refs :=
          [refOf none none (some "t".toList), { object_name := none },
           refOf (some "\"d\"".toList) none (some "u".toList)] })
        "SELECT 1".toList =
      (some { object_refs :=
        [refOf none none (some "t".toList), { object_name := none },
         refOf (some "\"d\"".toList) none (some "u".toList)] }, none) ∧
    extractSnowflakeResourceList
        (demoRuntime { object_refs :=
          [refOf none none (some "t".toList), { object_name := none },
           refOf (some "\"d\"".toList) none (some "u".toList)] })
        "DB1".toList "SC1".toList "SELECT 1".toList =
      some ([{ Database := "DB1".toList, Schema := "SC1".toList, Table := "T".toList },
             { Database := "d".toList, Schema := "SC1".toList, Table := "U".toList }], none) ∧
    ∀ r ∈ [({ Database := "DB1".toList, Schema := "SC1".toList, Table := "T".toList } :
              SchemaResource),
           { Database := "d".toList, Schema := "SC1".toList, Table := "U".toList }],
      ∃ ctx ∈ [refOf none none (some "t".toList), { object_name := none },
          refOf (some "\"d\"".toList) none (some "u".toList)],
        Resolves Char.toUpper "DB1".toList "SC1".toList ctx r := by
  have heval : extractSnowflakeResourceList
      (demoRuntime { object_refs :=
        [refOf none none (some "t".toList), { object_name := none },
         refOf (some "\"d\"".toList) none (some "u".toList)] })
      "DB1".toList "SC1".toList "SELECT 1".toList =
      some ([{ Database := "DB1".toList, Schema := "SC1".toList, Table := "T".toList },
             { Database := "d".toList, Schema := "SC1".toList, Table := "U".toList }], none) := by
    rw [extract_of_parse _ _ _ _ _ (ParseSnowSQL_demoRuntime _ _)]
    simp only [demoRuntime, Walk, refOf, Option.map, EnterObject_ref_eq, resolveObjectName,
      NormalizeObjectNamePart, ExtractOrdinaryIdentifier_eq, EnterObject_ref]
    decide
  exact ⟨demoRuntime_lawful _, rfl, heval,
    ((C9_result_set _ (demoRuntime_lawful _) _ _ _ _
      (ParseSnowSQL_demoRuntime _ _)).1 _ _ heval).1⟩

/-- C9, counterexample: for `SELECT * FROM "a.b"."c"."t", "a"."b.c"."t"` under
the empty ambient pair the first node resolves to `{a.b, c, t}`, and the
returned list is `[{a, b.c, t}]`, which does not hold it. -/
theorem C9_resolution_missing_from_result :
    extractSnowflakeResourceList
        (demoRuntime { object_refs :=
          [refOf (some "\"a.b\"".toList) (some "\"c\"".toList) (some "\"t\"".toList),
           refOf (some "\"a\"".toList) (some "\"b.c\"".toList) (some "\"t\"".toList)] })
        [] [] "SELECT * FROM \"a.b\".\"c\".\"t\", \"a\".\"b.c\".\"t\"".toList =
      some ([{ Database := "a".toList, Schema := "b.c".toList, Table := "t".toList }], none) ∧
    Resolves Char.toUpper [] []
      (refOf (some "\"a.b\"".toList) (some "\"c\"".toList) (some "\"t\"".toList))
      { Database := "a.b".toList, Schema := "c".toList, Table := "t".toList } ∧
    ({ Database := "a.b".toList, Schema := "c".toList, Table := "t".toList } : SchemaResource) ∉
      [({ Database := "a".toList, Schema := "b.c".toList, Table := "t".toList } :
        SchemaResource)] := by
  refine ⟨?_, ?_, by decide⟩
  · rw [extract_of_parse _ _ _ _ _ (ParseSnowSQL_demoRuntime _ _)]
    simp only [demoRuntime, Walk, refOf, Option.map, EnterObject_ref_eq, resolveObjectName,
      NormalizeObjectNamePart, ExtractOrdinaryIdentifier_eq]
    decide
  · simp only [Resolves, refOf, Option.map, EnterObject_ref_eq, resolveObjectName,
      NormalizeObjectNamePart, ExtractOrdinaryIdentifier_eq]
    decide

/-! ## C10: NormalizeObjectName -/

/-- C10: for every object name with optional parts d, s, o with normalized
values `nd`, `ns`, `no`, `NormalizeObjectName` returns the "."-join of: `nd`
(only when d is present and `nd` is non-empty), then the schema component
(`ns` when s is present and `ns` is non-empty, the literal `PUBLIC`
otherwise), then `no` (only when o is present and `no` is non-empty).  The
result is never the empty string, and the name with database part `db`, no
schema part and object part `obj` gives `DB.PUBLIC.OBJ`. -/
theorem C10_NormalizeObjectName (toUpper : Char → Char) (name : Object_nameContext)
    (nd ns no : GoString)
    (hd : NormalizeObjectNamePart toUpper name.d = some nd)
    (hs : NormalizeObjectNamePart toUpper name.s = some ns)
    (ho : NormalizeObjectNamePart toUpper name.o = some no) :
    NormalizeObjectName toUpper name =
      some (stringsJoin
        ((if name.d.isSome ∧ nd ≠ [] then [nd] else []) ++
          [if name.s.isSome ∧ ns ≠ [] then ns else "PUBLIC".toList] ++
          (if name.o.isSome ∧ no ≠ [] then [no] else [])) dot) ∧
    NormalizeObjectName toUpper name ≠ some [] ∧
    (ASCIIUpper toUpper →
      NormalizeObjectName toUpper
          { d := some { text := "db".toList }, s := none, o := some { text := "obj".toList } } =
        some "DB.PUBLIC.OBJ".toList) := by
  have hmain : NormalizeObjectName toUpper name =
      some (stringsJoin (objectNameParts name nd ns no) dot) := by
    rw [NormalizeObjectName_eq, hd, hs, ho]
  refine ⟨hmain, ?_, ?_⟩
  · rw [hmain]
    intro h
    refine stringsJoin_ne_nil dot (objectNameParts name nd ns no) ?_ (Option.some.inj h)
    refine ⟨if name.s.isSome ∧ ns ≠ [] then ns else "PUBLIC".toList, ?_, ?_⟩
    · simp [objectNameParts]
    · split
      · rename_i h'
        exact h'.2
      · decide
  · intro hup
    have hdb : ExtractOrdinaryIdentifier toUpper "db".toList = some "DB".toList := by
      rw [normalize_unquoted toUpper _ (by decide)]
      have h1 := hup 'd' (by decide)
      have h2 := hup 'b' (by decide)
      simp only [String.toList, List.map, h1, h2]
      decide
    have hobj : ExtractOrdinaryIdentifier toUpper "obj".toList = some "OBJ".toList := by
      rw [normalize_unquoted toUpper _ (by decide)]
      have h1 := hup 'o' (by decide)
      have h2 := hup 'b' (by decide)
      have h3 := hup 'j' (by decide)
      simp only [String.toList, List.map, h1, h2, h3]
      decide
    rw [NormalizeObjectName_eq]
    simp only [hdb, hobj, NormalizeObjectNamePart]
    decide

theorem C10_NormalizeObjectName_witness :
    (NormalizeObjectNamePart Char.toUpper (some { text := "\"\"".toList }) = some [] ∧
      NormalizeObjectNamePart Char.toUpper none = some [] ∧
      NormalizeObjectNamePart Char.toUpper (some { text := "\"a.b\"".toList }) =
        some "a.b".toList) ∧
    NormalizeObjectName Char.toUpper
        { d := some { text := "\"\"".toList }, s := none,
          o := some { text := "\"a.b\"".toList } } = some "PUBLIC.a.b".toList := by
  have hd : NormalizeObjectNamePart Char.toUpper (some { text := "\"\"".toList }) =
      some [] := by
    rw [NormalizeObjectNamePart, ExtractOrdinaryIdentifier_eq]; decide
  have ho : NormalizeObjectNamePart Char.toUpper (some { text := "\"a.b\"".toList }) =
      some "a.b".toList := by
    rw [NormalizeObjectNamePart, ExtractOrdinaryIdentifier_eq]; decide
  refine ⟨⟨hd, rfl, ho⟩, ?_⟩
  rw [(C10_NormalizeObjectName Char.toUpper
    { d := some { text := "\"\"".toList }, s := none, o := some { text := "\"a.b\"".toList } }
    [] [] "a.b".toList hd rfl ho).1]
  decide

/-! ## C11 to C14: ParseSnowSQL and error propagation -/

/-- C11: the input preprocessing of `ParseSnowSQL`, which removes every
trailing space, tab, newline, carriage return, form feed and `;` and appends
the terminator text, is idempotent: preprocessing a preprocessed text gives
that text again, so parsing the preprocessed text is parsing the text. -/
theorem C11_preprocessing_idempotent (s : GoString) :
    lexerInput (lexerInput s) = lexerInput s ∧
    lexerInput s = stringsTrimRight s " \t\n\r\x0c;".toList ++ "\n;".toList ∧
    ParseSnowSQL echoRuntime (lexerInput s) = ParseSnowSQL echoRuntime s ∧
    ∀ (ε : Type) (rt : GoRuntime ε), ParseSnowSQL rt (lexerInput s) = ParseSnowSQL rt s := by
  have h : ∀ (ε : Type) (rt : GoRuntime ε),
      ParseSnowSQL rt (lexerInput s) = ParseSnowSQL rt s := by
    intro ε rt
    rw [ParseSnowSQL_eq, ParseSnowSQL_eq rt s, lexerInput_idem]
  exact ⟨lexerInput_idem s, rfl, h _ echoRuntime, h⟩

/-- C12, as the code has it: for every statement text `s`, the text
`ParseSnowSQL` hands to the lexer is `s` with all its trailing spaces, tabs,
newlines, carriage returns, form feeds and `;` removed, followed by a newline
and then one `;`: the text ends with a newline followed by `;`, and the part
before that newline ends with no rune of the cutset. -/
theorem C12_lexer_input_shape (s : GoString) :
    ParseSnowSQL echoRuntime s = (none, some (lexerInput s)) ∧
    lexerInput s = stringsTrimRight s " \t\n\r\x0c;".toList ++ ['\n', ';'] ∧
    (∃ w, s = stringsTrimRight s " \t\n\r\x0c;".toList ++ w ∧
      ∀ c ∈ w, c ∈ " \t\n\r\x0c;".toList) ∧
    (∀ c, (stringsTrimRight s " \t\n\r\x0c;".toList).getLast? = some c →
      c ∉ " \t\n\r\x0c;".toList) ∧
    (lexerInput s).getLast? = some ';' ∧
    (lexerInput s).dropLast.getLast? = some '\n' ∧
    (lexerInput s).dropLast.dropLast = stringsTrimRight s " \t\n\r\x0c;".toList := by
  have hshape : lexerInput s = stringsTrimRight s " \t\n\r\x0c;".toList ++ ['\n', ';'] := rfl
  have hshape' : lexerInput s =
      (stringsTrimRight s " \t\n\r\x0c;".toList ++ ['\n']) ++ [';'] := by
    rw [hshape, List.append_assoc]
    rfl
  refine ⟨rfl, hshape, ?_, ?_, ?_, ?_, ?_⟩
  · obtain ⟨w, hw, hall⟩ := stringsTrimRight_split s " \t\n\r\x0c;".toList
    exact ⟨w, hw, fun c hc => by simpa using hall c hc⟩
  · intro c hc hmem
    have := stringsTrimRight_getLast s " \t\n\r\x0c;".toList c hc
    have hcon : " \t\n\r\x0c;".toList.contains c = true := by simpa using hmem
    rw [this] at hcon
    cases hcon
  · rw [hshape', List.getLast?_append]
    rfl
  · rw [hshape', List.dropLast_concat, List.getLast?_append]
    rfl
  · rw [hshape', List.dropLast_concat, List.dropLast_concat]

/-- C12, counterexample: for `SELECT 1;` the text handed to the lexer is
`SELECT 1` followed by a newline and then `;`; it is not `SELECT 1;` followed
by a newline, it does not end with a newline, and the part before its final
`;` ends with a newline. -/
theorem C12_terminator_after_newline :
    ParseSnowSQL echoRuntime "SELECT 1;".toList = (none, some "SELECT 1\n;".toList) ∧
    lexerInput "SELECT 1;".toList = "SELECT 1\n;".toList ∧
    lexerInput "SELECT 1;".toList ≠ "SELECT 1;\n".toList ∧
    (lexerInput "SELECT 1;".toList).getLast? ≠ some '\n' ∧
    (lexerInput "SELECT 1;".toList).dropLast.getLast? = some '\n' := by
  decide

/-- C13: with `lexErr` and `parseErr` the errors the lexer's and the parser's
error listeners hold after parsing the preprocessed text, `ParseSnowSQL`
returns (nil tree, `lexErr`) when `lexErr` is set, whether or not `parseErr`
is; (nil tree, `parseErr`) when only `parseErr` is set; (tree, nil) when
neither is set, and only then a nil error; never a tree together with an
error, and never neither. -/
theorem C13_ParseSnowSQL_errors {ε : Type} (rt : GoRuntime ε) (statement : GoString) :
    (∀ err, (rt.snowflakeFile (lexerInput statement)).2.1 = some err →
      ParseSnowSQL rt statement = (none, some err)) ∧
    ((rt.snowflakeFile (lexerInput statement)).2.1 = none →
      ∀ err, (rt.snowflakeFile (lexerInput statement)).2.2 = some err →
        ParseSnowSQL rt statement = (none, some err)) ∧
    ((rt.snowflakeFile (lexerInput statement)).2.1 = none →
      (rt.snowflakeFile (lexerInput statement)).2.2 = none →
        ParseSnowSQL rt statement = (some (rt.snowflakeFile (lexerInput statement)).1, none)) ∧
    ((ParseSnowSQL rt statement).2 = none ↔
      (rt.snowflakeFile (lexerInput statement)).2.1 = none ∧
        (rt.snowflakeFile (lexerInput statement)).2.2 = none) ∧
    ((ParseSnowSQL rt statement).1 = none ↔ (ParseSnowSQL rt statement).2 ≠ none) := by
  rw [ParseSnowSQL_eq]
  generalize rt.snowflakeFile (lexerInput statement) = r
  obtain ⟨t, le, pe⟩ := r
  cases le <;> cases pe <;> simp

/-- C14: `extractSnowflakeResourceList` returns an error if and only if
`ParseSnowSQL` returns one for the statement: when `ParseSnowSQL` returns an
error the call returns that error with the nil list, whatever the tree and
the nodes (no walk); when it returns none, every pair the call returns has a
nil error, and the call returns a pair whenever no identifier of a node is
the one-rune text on which the normalizer faults. -/
theorem C14_error_propagation {ε : Type} (rt : GoRuntime ε) (cd cs statement : GoString) :
    (∀ err, (ParseSnowSQL rt statement).2 = some err →
      extractSnowflakeResourceList rt cd cs statement = some ([], some err)) ∧
    (∀ result err, extractSnowflakeResourceList rt cd cs statement = some (result, some err) →
      (ParseSnowSQL rt statement).2 = some err ∧ result = []) ∧
    ((ParseSnowSQL rt statement).2 = none →
      ∀ result err, extractSnowflakeResourceList rt cd cs statement = some (result, err) →
        err = none) ∧
    ((ParseSnowSQL rt statement).2 = none →
      ∃ tree, ParseSnowSQL rt statement = (some tree, none) ∧
        ((∀ ctx ∈ tree.object_refs, ctx.Valid) →
          ∃ result, extractSnowflakeResourceList rt cd cs statement = some (result, none))) := by
  rcases ParseSnowSQL_shape rt statement with ⟨e, he⟩ | ⟨tree, ht⟩
  · have hx := extract_of_error rt cd cs statement none e he
    refine ⟨?_, ?_, ?_, ?_⟩
    · intro err herr
      rw [he] at herr
      cases herr
      exact hx
    · intro result err hres
      rw [hx] at hres
      cases hres
      exact ⟨by rw [he], rfl⟩
    · intro hnone
      rw [he] at hnone
      cases hnone
    · intro hnone
      rw [he] at hnone
      cases hnone
  · have hx := extract_of_parse rt cd cs statement tree ht
    have hnil : ∀ result err,
        extractSnowflakeResourceList rt cd cs statement = some (result, err) → err = none := by
      intro result err hres
      rw [hx] at hres
      cases hw : Walk rt.toUpper { currentDatabase := cd, currentSchema := cs, resourceMap := [] }
          tree.object_refs with
      | none =>
        rw [hw] at hres
        cases hres
      | some l =>
        rw [hw] at hres
        simp only [Option.map, Option.some.injEq, Prod.mk.injEq] at hres
        exact hres.2.symm
    refine ⟨?_, ?_, fun _ => hnil, ?_⟩
    · intro err herr
      rw [ht] at herr
      cases herr
    · intro result err hres
      cases hnil result (some err) hres
    · intro _
      refine ⟨tree, ht, ?_⟩
      intro hvalid
      obtain ⟨l, hw⟩ := Walk_valid rt.toUpper tree.object_refs
        { currentDatabase := cd, currentSchema := cs, resourceMap := [] } hvalid
      exact ⟨_, by rw [hx, hw]; rfl⟩

/-! ## C15 and C16: skipped nodes and the keyword lookup -/

/-- C15, as the code has it: a reference node whose object-name node is
missing is skipped, on every registry `EnterObject_ref` returns the listener
unchanged; a node that has an object name whose object part is absent or
normalizes to the empty string is not skipped: it is stored, with the empty
Table, under the key Database + "." + Schema + ".". -/
theorem C15_missing_object_name_skipped (toUpper : Char → Char)
    (l : snowsqlResourceExtractListener) :
    (EnterObject_ref toUpper l { object_name := none } = some l) ∧
    (∀ (name : Object_nameContext) (nd ns : GoString),
      NormalizeObjectNamePart toUpper name.d = some nd →
      NormalizeObjectNamePart toUpper name.s = some ns →
      NormalizeObjectNamePart toUpper name.o = some [] →
      EnterObject_ref toUpper l { object_name := some name } =
        some { currentDatabase := l.currentDatabase, currentSchema := l.currentSchema,
               resourceMap := (mapSet l.resourceMap
                ((if name.d.isSome ∧ nd ≠ [] then nd else l.currentDatabase) ++ dot ++
                  (if name.s.isSome ∧ ns ≠ [] then ns else l.currentSchema) ++ dot)
                { Database := if name.d.isSome ∧ nd ≠ [] then nd else l.currentDatabase,
                  Schema := if name.s.isSome ∧ ns ≠ [] then ns else l.currentSchema,
                  Table := [] }) }) := by
  refine ⟨rfl, ?_⟩
  intro name nd ns hd hs ho
  rw [EnterObject_ref_eq, resolveObjectName, hd, hs, ho]
  simp only [Option.map, SchemaResource.String, List.append_nil]

/-- C15, counterexample: under (`DB1`, `SC1`) the reference `""`, whose object
part normalizes to the empty string, and a reference whose object part is
absent are both stored in the empty registry with an empty Table, and the
extraction of a statement with the reference `""` returns the resource
`{DB1, SC1, }` with the empty Table. -/
theorem C15_empty_table_stored :
    EnterObject_ref Char.toUpper
        { currentDatabase := "DB1".toList, currentSchema := "SC1".toList, resourceMap := [] }
        (refOf none none (some "\"\"".toList)) =
      some { currentDatabase := "DB1".toList, currentSchema := "SC1".toList,
             resourceMap := [("DB1.SC1.".toList,
               { Database := "DB1".toList, Schema := "SC1".toList, Table := [] })] } ∧
    EnterObject_ref Char.toUpper
        { currentDatabase := "DB1".toList, currentSchema := "SC1".toList, resourceMap := [] }
        (refOf none none none) =
      some { currentDatabase := "DB1".toList, currentSchema := "SC1".toList,
             resourceMap := [("DB1.SC1.".toList,
               { Database := "DB1".toList, Schema := "SC1".toList, Table := [] })] } ∧
    extractSnowflakeResourceList
        (demoRuntime { object_refs := [refOf none none (some "\"\"".toList)] })
        "DB1".toList "SC1".toList "SELECT * FROM \"\"".toList =
      some ([{ Database := "DB1".toList, Schema := "SC1".toList, Table := [] }], none) := by
  refine ⟨?_, ?_, ?_⟩
  · simp only [refOf, Option.map, EnterObject_ref_eq, resolveObjectName,
      NormalizeObjectNamePart, ExtractOrdinaryIdentifier_eq]
    decide
  · simp only [refOf, Option.map, EnterObject_ref_eq, resolveObjectName,
      NormalizeObjectNamePart, ExtractOrdinaryIdentifier_eq]
    decide
  · rw [extract_of_parse _ _ _ _ _ (ParseSnowSQL_demoRuntime _ _)]
    simp only [demoRuntime, Walk, refOf, Option.map, EnterObject_ref_eq, resolveObjectName,
      NormalizeObjectNamePart, ExtractOrdinaryIdentifier_eq]
    decide

/-- C16: for every string `s`, `IsSnowflakeKeyword(s, false)` equals
`IsSnowflakeKeyword(strings.ToUpper(s), true)`, and `IsSnowflakeKeyword(s,
true)` is true exactly when `s` is one of the keys of the keyword table;
`select` is a keyword in the case-insensitive lookup (under an upper-casing
that is the ASCII one on ASCII runes) and not in the case-sensitive one,
`SELECT` is one in both. -/
theorem C16_IsSnowflakeKeyword (toUpper : Char → Char) (s : GoString) :
    IsSnowflakeKeyword toUpper s false =
      IsSnowflakeKeyword toUpper (stringsToUpper toUpper s) true ∧
    (IsSnowflakeKeyword toUpper s true = true ↔ s ∈ snowflakeKeyword.map (fun kv => kv.1)) ∧
    (IsSnowflakeKeyword toUpper s false = true ↔
      s.map toUpper ∈ snowflakeKeyword.map (fun kv => kv.1)) ∧
    (ASCIIUpper toUpper →
      IsSnowflakeKeyword toUpper "select".toList false = true ∧
      IsSnowflakeKeyword toUpper "SELECT".toList false = true) ∧
    IsSnowflakeKeyword toUpper "select".toList true = false ∧
    IsSnowflakeKeyword toUpper "SELECT".toList true = true := by
  refine ⟨rfl, mapIndexBool_true_iff _ snowflakeKeyword_all_true s,
    mapIndexBool_true_iff _ snowflakeKeyword_all_true _, ?_, ?_, ?_⟩
  rotate_left
  · show mapIndexBool snowflakeKeyword "select".toList = false
    decide
  · show mapIndexBool snowflakeKeyword "SELECT".toList = true
    decide
  intro hup
  have h1 : stringsToUpper toUpper "select".toList = "SELECT".toList := by
    rw [stringsToUpper, upper_ascii_map toUpper hup _ (by decide)]
    decide
  have h2 : stringsToUpper toUpper "SELECT".toList = "SELECT".toList := by
    rw [stringsToUpper, upper_ascii_map toUpper hup _ (by decide)]
    decide
  constructor
  · show mapIndexBool snowflakeKeyword (stringsToUpper toUpper "select".toList) = true
    rw [h1]
    decide
  · show mapIndexBool snowflakeKeyword (stringsToUpper toUpper "SELECT".toList) = true
    rw [h2]
    decide

/-! ## C17 to C19: order independence, trailing formatting, the registry invariant -/

/-- C17: the result of `extractSnowflakeResourceList` does not depend on the
order in which the registry is enumerated nor on the sorting procedure: for
two runtimes with the same upper-casing and the same lexer and parser, whose
map enumerations and sorts meet their contracts (the sort need not be
stable), every registry built by `EnterObject_ref` calls from the empty
registry is drained and sorted to the same sequence, and the extraction of a
statement under an ambient pair gives the same outcome. -/
theorem C17_enumeration_order_irrelevant {ε : Type} (rt1 rt2 : GoRuntime ε)
    (h1 : rt1.Lawful) (h2 : rt2.Lawful) (hup : rt1.toUpper = rt2.toUpper)
    (hfile : rt1.snowflakeFile = rt2.snowflakeFile) (cd cs statement : GoString) :
    (∀ ctxs l,
      Walk rt1.toUpper { currentDatabase := cd, currentSchema := cs, resourceMap := [] } ctxs =
        some l →
      rt1.sortSlice ((rt1.mapRange l.resourceMap).map (fun kv => kv.2))
          (fun a b => stringLess a.String b.String) =
        rt2.sortSlice ((rt2.mapRange l.resourceMap).map (fun kv => kv.2))
          (fun a b => stringLess a.String b.String)) ∧
    extractSnowflakeResourceList rt1 cd cs statement =
      extractSnowflakeResourceList rt2 cd cs statement := by
  have hreg : ∀ ctxs l,
      Walk rt1.toUpper { currentDatabase := cd, currentSchema := cs, resourceMap := [] } ctxs =
        some l →
      rt1.sortSlice ((rt1.mapRange l.resourceMap).map (fun kv => kv.2))
          (fun a b => stringLess a.String b.String) =
        rt2.sortSlice ((rt2.mapRange l.resourceMap).map (fun kv => kv.2))
          (fun a b => stringLess a.String b.String) :=
    fun ctxs l hw => sorted_drain_unique rt1 rt2 h1 h2 l.resourceMap
      (Walk_nil_inv rt1.toUpper cd cs ctxs l hw)
  refine ⟨hreg, ?_⟩
  have hparse : ParseSnowSQL rt1 statement = ParseSnowSQL rt2 statement := by
    rw [ParseSnowSQL_eq, ParseSnowSQL_eq rt2, hfile]
  rcases ParseSnowSQL_shape rt2 statement with ⟨e, he⟩ | ⟨tree, ht⟩
  · rw [extract_of_error rt1 cd cs statement none e (hparse.trans he),
      extract_of_error rt2 cd cs statement none e he]
  · rw [extract_of_parse rt1 cd cs statement tree (hparse.trans ht),
      extract_of_parse rt2 cd cs statement tree ht, ← hup]
    cases hw : Walk rt1.toUpper { currentDatabase := cd, currentSchema := cs, resourceMap := [] }
        tree.object_refs with
    | none => rfl
    | some l =>
      simp only [Option.map]
      rw [hreg tree.object_refs l hw]

theorem C17_enumeration_order_irrelevant_witness :
    (demoRuntime { object_refs :=
        [refOf (some "b".toList) none (some "t2".toList),
         refOf none none (some "t1".toList),
         refOf (some "A".toList) (some "x".toList) (some "T2".toList)] }).Lawful ∧
    (demoRuntimeForward { object_refs :=
        [refOf (some "b".toList) none (some "t2".toList),
         refOf none none (some "t1".toList),
         refOf (some "A".toList) (some "x".toList) (some "T2".toList)] }).Lawful ∧
    extractSnowflakeResourceList
        (demoRuntime { object_refs :=
          [refOf (some "b".toList) none (some "t2".toList),
           refOf none none (some "t1".toList),
           refOf (some "A".toList) (some "x".toList) (some "T2".toList)] })
        "B".toList "S".toList "SELECT 1".toList =
      extractSnowflakeResourceList
        (demoRuntimeForward { object_refs :=
          [refOf (some "b".toList) none (some "t2".toList),
           refOf none none (some "t1".toList),
           refOf (some "A".toList) (some "x".toList) (some "T2".toList)] })
        "B".toList "S".toList "SELECT 1".toList :=
  ⟨demoRuntime_lawful _, demoRuntimeForward_lawful _,
    (C17_enumeration_order_irrelevant _ _ (demoRuntime_lawful _) (demoRuntimeForward_lawful _)
      rfl rfl "B".toList "S".toList "SELECT 1".toList).2⟩

/-- C18: the preprocessing of `ParseSnowSQL` ignores trailing formatting: for
every statement text `s` and every `w` made only of spaces, tabs, newlines,
carriage returns, form feeds and `;`, the text handed to the lexer for `s`
followed by `w` is the text handed to the lexer for `s`, and so is the result
of `ParseSnowSQL`; `SELECT 1`, `SELECT 1;` and `SELECT 1 ;;` followed by a
newline are all lexed from `SELECT 1`, newline, `;`. -/
theorem C18_trailing_formatting_ignored (s w : GoString)
    (hw : ∀ c ∈ w, c ∈ " \t\n\r\x0c;".toList) :
    lexerInput (s ++ w) = lexerInput s ∧
    ParseSnowSQL echoRuntime (s ++ w) = ParseSnowSQL echoRuntime s ∧
    (∀ (ε : Type) (rt : GoRuntime ε), ParseSnowSQL rt (s ++ w) = ParseSnowSQL rt s) ∧
    lexerInput "SELECT 1".toList = "SELECT 1\n;".toList ∧
    lexerInput "SELECT 1;".toList = "SELECT 1\n;".toList ∧
    lexerInput "SELECT 1 ;;\n".toList = "SELECT 1\n;".toList := by
  have h : ∀ (ε : Type) (rt : GoRuntime ε), ParseSnowSQL rt (s ++ w) = ParseSnowSQL rt s := by
    intro ε rt
    rw [ParseSnowSQL_eq, ParseSnowSQL_eq rt s, lexerInput_append s w hw]
  exact ⟨lexerInput_append s w hw, h _ echoRuntime, h, by decide, by decide, by decide⟩

theorem C18_trailing_formatting_ignored_witness :
    (∀ c ∈ " ;\t;\r\n\x0c".toList, c ∈ " \t\n\r\x0c;".toList) ∧
    lexerInput ("SELECT 1 -- x".toList ++ " ;\t;\r\n\x0c".toList) =
      lexerInput "SELECT 1 -- x".toList ∧
    lexerInput "SELECT 1 -- x".toList = "SELECT 1 -- x\n;".toList :=
  ⟨by decide,
    (C18_trailing_formatting_ignored "SELECT 1 -- x".toList " ;\t;\r\n\x0c".toList
      (by decide)).1, by decide⟩

/-- C19: registry invariant: starting from the empty registry, after any
sequence of `EnterObject_ref` calls every entry (k, r) of the registry has
k = r.Database + "." + r.Schema + "." + r.Table, and no two entries have the
same key; each call leaves the ambient pair as it is and either leaves the
registry as it is or assigns one key: the value under every other key is
unchanged and the registry grows by at most one entry. -/
theorem C19_registry_invariant (toUpper : Char → Char) (cd cs : GoString)
    (ctxs : List Object_refContext) (l : snowsqlResourceExtractListener)
    (hw : Walk toUpper { currentDatabase := cd, currentSchema := cs, resourceMap := [] } ctxs =
      some l) :
    (∀ kv ∈ l.resourceMap, kv.1 = kv.2.Database ++ dot ++ kv.2.Schema ++ dot ++ kv.2.Table) ∧
    (l.resourceMap.map (fun kv => kv.1)).Nodup ∧
    (∀ ctx l', EnterObject_ref toUpper l ctx = some l' →
      (∀ kv ∈ l'.resourceMap,
        kv.1 = kv.2.Database ++ dot ++ kv.2.Schema ++ dot ++ kv.2.Table) ∧
      l'.currentDatabase = l.currentDatabase ∧ l'.currentSchema = l.currentSchema ∧
      (l'.resourceMap = l.resourceMap ∨
        ∃ k v, l'.resourceMap = mapSet l.resourceMap k v ∧
          mapGet l'.resourceMap k = some v ∧
          (∀ k', k' ≠ k → mapGet l'.resourceMap k' = mapGet l.resourceMap k') ∧
          l'.resourceMap.length ≤ l.resourceMap.length + 1)) := by
  have hinv := Walk_nil_inv toUpper cd cs ctxs l hw
  refine ⟨hinv.2, hinv.1, ?_⟩
  intro ctx l' hstep
  obtain ⟨ha, hb, hc⟩ := EnterObject_ref_ambient toUpper l l' ctx hstep
  refine ⟨(hc hinv).2, ha, hb, ?_⟩
  rcases EnterObject_ref_cases toUpper l l' ctx hstep with ⟨-, h'⟩ | ⟨name, r, -, -, h'⟩
  · exact Or.inl (by rw [h'])
  · right
    subst h'
    refine ⟨r.String, r, rfl, mapGet_mapSet_self _ _ _,
      fun k' hk' => mapGet_mapSet_ne _ _ _ k' hk', ?_⟩
    show (mapSet l.resourceMap r.String r).length ≤ l.resourceMap.length + 1
    rw [length_mapSet]
    split <;> omega

theorem C19_registry_invariant_witness :
    Walk Char.toUpper { currentDatabase := "DB1".toList, currentSchema := [], resourceMap := [] }
        [refOf none none (some "t".toList), { object_name := none },
         refOf (some "\"d\"".toList) (some "s".toList) (some "T".toList),
         refOf none none (some "T".toList)] =
      some { currentDatabase := "DB1".toList, currentSchema := [],
             resourceMap :=
               [("DB1..T".toList, { Database := "DB1".toList, Schema := [], Table := "T".toList }),
                ("d.S.T".toList,
                  { Database := "d".toList, Schema := "S".toList, Table := "T".toList })] } ∧
    ∀ kv ∈ [("DB1..T".toList,
              ({ Database := "DB1".toList, Schema := [], Table := "T".toList } : SchemaResource)),
            ("d.S.T".toList,
              { Database := "d".toList, Schema := "S".toList, Table := "T".toList })],
      kv.1 = kv.2.Database ++ dot ++ kv.2.Schema ++ dot ++ kv.2.Table := by
  have hw : Walk Char.toUpper
      { currentDatabase := "DB1".toList, currentSchema := [], resourceMap := [] }
      [refOf none none (some "t".toList), { object_name := none },
       refOf (some "\"d\"".toList) (some "s".toList) (some "T".toList),
       refOf none none (some "T".toList)] =
      some { currentDatabase := "DB1".toList, currentSchema := [],
             resourceMap :=
               [("DB1..T".toList, { Database := "DB1".toList, Schema := [], Table := "T".toList }),
                ("d.S.T".toList,
                  { Database := "d".toList, Schema := "S".toList, Table := "T".toList })] } := by
    simp only [Walk, refOf, Option.map, EnterObject_ref_eq, resolveObjectName,
      NormalizeObjectNamePart, ExtractOrdinaryIdentifier_eq, EnterObject_ref]
    decide
  exact ⟨hw, (C19_registry_invariant Char.toUpper _ _ _ _ hw).1⟩

end Snowsql
